import Mathlib

/-!
Verification of the BattelASM assembler.

The development shallowly embeds `src/assembler.c` (and, where the two
variants differ, `src/compile.c`).  C strings are modelled as `List Char`,
the input file as a character stream (`List Char`), `uint16_t` ("fint")
values as `Nat` reduced modulo `2 ^ 16` at each store, `size_t` as `Nat`
reduced modulo `2 ^ 64`, and C `int` stores as two's-complement wrapping at
32 bits.  Reads of uninitialised memory and out-of-bounds writes are mapped
to an explicit `Err.ub` result.  The post-decrement replay loop
`while (repeat_times--)` is modelled with wrap-around semantics for the
`int` counter, matching the observable behaviour of the compiled program.
-/

namespace Battel

/-- Shorthand turning a string literal into the `List Char` that models a C string. -/
def str (s : String) : List Char := s.data

/-- C `isspace` in the default locale (ASCII). -/
def isSpaceC (c : Char) : Bool :=
  c = ' ' || c = '\t' || c = '\n' || c = '\r' || c = '\x0b' || c = '\x0c'

/-- C `isdigit`. -/
def isDigitC (c : Char) : Bool := '0' ≤ c && c ≤ '9'

/-- C `tolower` (ASCII). -/
def lowerC (c : Char) : Char :=
  if 'A' ≤ c && c ≤ 'Z' then Char.ofNat (c.toNat + 32) else c

/-- Lower-case an entire string; used to model `strcasecmp`. -/
def lowerS (s : List Char) : List Char := s.map lowerC

/-- `strcasecmp(a, b) == 0`. -/
def caseEq (a b : List Char) : Bool := lowerS a == lowerS b

/-- `strncasecmp(line, pre, pre.length) == 0` for a literal `pre` that contains
no NUL: the comparison succeeds exactly when `line` is at least as long as
`pre` and the first `pre.length` characters agree case-insensitively. -/
def casePrefix (pre line : List Char) : Bool :=
  pre.length ≤ line.length && caseEq (line.take pre.length) pre

/-- Two's-complement wrap of an integer value into a C 32-bit `int` store. -/
def toInt32 (v : Int) : Int :=
  let r := v % (2 ^ 32)
  if r < 2 ^ 31 then r else r - 2 ^ 32

/-- Conversion of a C `int` value to `size_t` (64-bit unsigned). -/
def toSize (v : Int) : Nat := (v % (2 ^ 64)).toNat

/-- `size_t` subtraction `a - b` (wraps modulo `2 ^ 64`). -/
def sub64 (a b : Nat) : Nat := (a + (2 ^ 64 - b % 2 ^ 64)) % 2 ^ 64

/-- Store into a `fint` (`uint16_t`) lvalue: reduce modulo `2 ^ 16`. -/
def fintAssign (x : Nat) : Nat := x % 65536

def LONG_MAX : Int := 2 ^ 63 - 1
def LONG_MIN : Int := -(2 ^ 63)

/-- Value of a digit run in the given base (digits already validated). -/
def runVal (base : Nat) (f : Char → Nat) (ds : List Char) : Nat :=
  ds.foldl (fun acc c => acc * base + f c) 0

def decDigit (c : Char) : Nat := c.toNat - '0'.toNat

def hexDigit? (c : Char) : Option Nat :=
  if isDigitC c then some (decDigit c)
  else if 'a' ≤ c ∧ c ≤ 'f' then some (c.toNat + 10 - 'a'.toNat)
  else if 'A' ≤ c ∧ c ≤ 'F' then some (c.toNat + 10 - 'A'.toNat)
  else none

/-- Result of C `strtol`: the returned `long`, the `endptr` tail, and whether
`errno` was set to `ERANGE`. -/
structure Strtol where
  value : Int
  rest : List Char
  erange : Bool

/-- `strtol(s, &endptr, 10)`: skip whitespace, optional sign, a decimal digit
run; with no digits the conversion fails and `endptr` stays at `s`. -/
def strtolD (s : List Char) : Strtol :=
  let t := s.dropWhile (fun c => isSpaceC c)
  let neg := t.headD ' ' = '-'
  let t1 := if t.headD ' ' = '-' || t.headD ' ' = '+' then t.tail else t
  let ds := t1.takeWhile (fun c => isDigitC c)
  if ds.isEmpty then { value := 0, rest := s, erange := false }
  else
    let m : Int := (runVal 10 decDigit ds : Nat)
    let v : Int := if neg then -m else m
    if v > LONG_MAX then { value := LONG_MAX, rest := t1.drop ds.length, erange := true }
    else if v < LONG_MIN then { value := LONG_MIN, rest := t1.drop ds.length, erange := true }
    else { value := v, rest := t1.drop ds.length, erange := false }

/-- `strtol(s, &endptr, 16)`: like `strtolD` but base 16, accepting an
optional `0x`/`0X` prefix when a hex digit follows it. -/
def strtolH (s : List Char) : Strtol :=
  let t := s.dropWhile (fun c => isSpaceC c)
  let neg := t.headD ' ' = '-'
  let t1 := if t.headD ' ' = '-' || t.headD ' ' = '+' then t.tail else t
  let t2 :=
    match t1 with
    | '0' :: x :: r =>
      if (x = 'x' || x = 'X') &&
          (match r with | c :: _ => (hexDigit? c).isSome | [] => false) then r
      else t1
    | _ => t1
  let ds := t2.takeWhile (fun c => (hexDigit? c).isSome)
  if ds.isEmpty then { value := 0, rest := s, erange := false }
  else
    let m : Int := (runVal 16 (fun c => (hexDigit? c).getD 0) ds : Nat)
    let v : Int := if neg then -m else m
    if v > LONG_MAX then { value := LONG_MAX, rest := t2.drop ds.length, erange := true }
    else if v < LONG_MIN then { value := LONG_MIN, rest := t2.drop ds.length, erange := true }
    else { value := v, rest := t2.drop ds.length, erange := false }

/-- Outcome of the number/constant parsers: success with the stored `int`,
a reported parse failure, or undefined behaviour reached. -/
inductive PRes where
  | ok (v : Int)
  | fail
  | ub
  deriving Repr, DecidableEq

/-- The accumulation loop of `parseNum`'s binary branch
(`val = val * 2 + (s[i] - '0')` on a C `long`; signed overflow is UB). -/
def binValAux : List Char → Int → PRes
  | [], acc => .ok acc
  | c :: cs, acc =>
    if c = '0' || c = '1' then
      let acc' := acc * 2 + (decDigit c : Nat)
      if acc' > LONG_MAX then .ub else binValAux cs acc'
    else if c = '.' then binValAux cs acc
    else .fail

/-- `parseNum` from assembler.c: binary (`0b`, `.` separators allowed),
hexadecimal (`0x`, via `strtol` base 16) or decimal (`strtol` base 10);
the parsed `long` is stored into the `int` out-parameter. -/
def parseNum (s : List Char) : PRes :=
  match s with
  | '0' :: 'b' :: rest =>
    match binValAux rest 0 with
    | .ok v => .ok (toInt32 v)
    | .fail => .fail
    | .ub => .ub
  | '0' :: 'x' :: rest =>
    let r := strtolH rest
    if r.rest ≠ [] || r.erange then .fail else .ok (toInt32 r.value)
  | _ =>
    let r := strtolD s
    if r.rest ≠ [] || r.erange then .fail else .ok (toInt32 r.value)

/-- One `%d` conversion of `scanf`: skip whitespace, optional sign, a decimal
digit run; fails when no digit follows.  The value is stored into an `int`. -/
def scanfInt (s : List Char) : Option (Int × List Char) :=
  let t := s.dropWhile (fun c => isSpaceC c)
  let neg := t.headD ' ' = '-'
  let t1 := if t.headD ' ' = '-' || t.headD ' ' = '+' then t.tail else t
  let ds := t1.takeWhile (fun c => isDigitC c)
  if ds.isEmpty then none
  else
    let m : Int := (runVal 10 decDigit ds : Nat)
    some (toInt32 (if neg then -m else m), t1.drop ds.length)

/-- The size-relative value computed by `parseConst`
(`size_t` product and sum, then stored into an `int`). -/
def constExpr (a : Nat) (mult change : Int) : Int :=
  toInt32 ((((a % 2 ^ 64) * toSize mult + toSize change) % 2 ^ 64 : Nat) : Int)

/-- `parseConst` from assembler.c: `sscanf(s, "#%254[^:]:%d:%d", ...)` with
`change` defaulting to 0 and `multiplier` to 1, then a case-insensitive
dispatch on `size` / `before` / `after`.  An empty `%[^:]` match leaves
`const_name` uninitialised (UB). -/
def parseConst (s : List Char) (ps inum : Nat) : PRes :=
  if s.headD ' ' ≠ '#' then .fail
  else
    let rest := s.tail
    let nameRun := rest.takeWhile (fun c => c ≠ ':')
    if nameRun.isEmpty then .ub
    else
      let cname := nameRun.take 254
      let after := rest.drop (min nameRun.length 254)
      let step1 : Int × List Char × Bool :=
        match after with
        | ':' :: r =>
          match scanfInt r with
          | some (v, r') => (v, r', true)
          | none => (0, r, false)
        | _ => (0, after, false)
      let change := step1.1
      let mult : Int :=
        if step1.2.2 then
          match step1.2.1 with
          | ':' :: r =>
            match scanfInt r with
            | some (v, _) => v
            | none => 1
          | _ => 1
        else 1
      if caseEq cname (str "size") then .ok (constExpr ps mult change)
      else if caseEq cname (str "before") then .ok (constExpr inum mult change)
      else if caseEq cname (str "after") then .ok (constExpr (sub64 (sub64 ps inum) 1) mult change)
      else .fail

/-- Opcode values from the assembler.c `enum`. -/
def OP_LDI : Nat := 0x00
def OP_MV : Nat := 0x20
def OP_ADD : Nat := 0x21
def OP_SUB : Nat := 0x22
def OP_NOT : Nat := 0x23
def OP_AND : Nat := 0x24
def OP_OR : Nat := 0x25
def OP_XOR : Nat := 0x26
def OP_SHL : Nat := 0x27
def OP_SHR : Nat := 0x28
def OP_JMP : Nat := 0x29
def OP_JZ : Nat := 0x2a
def OP_JNZ : Nat := 0x2b
def OP_JN : Nat := 0x2c
def OP_JP : Nat := 0x2d
def OP_LD : Nat := 0x2e
def OP_ST : Nat := 0x2f
def OP_PUSH : Nat := 0x30
def OP_POP : Nat := 0x31
def OP_ADDI : Nat := 0x32
def OP_SUBI : Nat := 0x33
def OP_SHLI : Nat := 0x34
def OP_SHRI : Nat := 0x35
def OP_FLAG : Nat := 0x3f

/-- `getOperation` from assembler.c: the case-insensitive mnemonic table. -/
def getOperation (s : List Char) : Option Nat :=
  if caseEq s (str "LDI") then some OP_LDI
  else if caseEq s (str "MV") then some OP_MV
  else if caseEq s (str "ADD") then some OP_ADD
  else if caseEq s (str "SUB") then some OP_SUB
  else if caseEq s (str "NOT") then some OP_NOT
  else if caseEq s (str "AND") then some OP_AND
  else if caseEq s (str "OR") then some OP_OR
  else if caseEq s (str "XOR") then some OP_XOR
  else if caseEq s (str "SHL") then some OP_SHL
  else if caseEq s (str "SHR") then some OP_SHR
  else if caseEq s (str "JMP") then some OP_JMP
  else if caseEq s (str "JZ") then some OP_JZ
  else if caseEq s (str "JNZ") then some OP_JNZ
  else if caseEq s (str "JN") then some OP_JN
  else if caseEq s (str "JP") then some OP_JP
  else if caseEq s (str "LD") then some OP_LD
  else if caseEq s (str "ST") then some OP_ST
  else if caseEq s (str "PUSH") then some OP_PUSH
  else if caseEq s (str "POP") then some OP_POP
  else if caseEq s (str "ADDI") then some OP_ADDI
  else if caseEq s (str "SUBI") then some OP_SUBI
  else if caseEq s (str "SHLI") then some OP_SHLI
  else if caseEq s (str "SHRI") then some OP_SHRI
  else if caseEq s (str "FLAG") then some OP_FLAG
  else none

/-- Error taxonomy.  `ub` marks reads of uninitialised data or out-of-bounds
writes; `headerMissing` the failed header `fscanf`. -/
inductive Err where
  | ub
  | headerMissing
  | unknownInstruction (t : List Char)
  | badNumber (t : List Char)
  | numNotInRange16 (t : List Char)
  | numNotInRange6 (t : List Char)
  | unknownRegister (t : List Char)
  | invalidVarName (t : List Char)
  | tooManyVariables (t : List Char)
  | invalidRegisterNoVars (t : List Char)
  | emptyToken
  | tooManyParams (n : Nat)
  | tooFewParams (n : Nat)
  | startsBack (wanted current : Nat)
  | freeUnused (t : List Char)
  | repeatNeedsTwo
  | nestedRepeat
  | sizeMismatch (sizing emitted : Nat)
  | divByZero
  deriving Repr, DecidableEq

/-- The variable table `char variables[32][255]` (one string per slot). -/
abbrev VarTable := List (List Char)

/-- `init_variables`: slot 30 is pre-bound to `sp`, slot 31 to `pc`. -/
def initVariables : VarTable := List.replicate 30 [] ++ [str "sp", str "pc"]

/-- The body of `getRegister`'s lookup loop over a list of slot indices:
return the first case-insensitive match, remembering the first empty slot on
the way. -/
def scanLoop (vars : VarTable) (sym : List Char) : List Nat → Option Nat → Sum Nat (Option Nat)
  | [], e => .inr e
  | i :: is, e =>
    if caseEq (vars.getD i []) sym then .inl i
    else scanLoop vars sym is (if e.isNone && (vars.getD i []).isEmpty then some i else e)

/-- The lookup loop of `getRegister`'s symbolic path
(`for (int i = 1; i < 32; i++)` with `empty = -1` initially). -/
def scanVars (vars : VarTable) (sym : List Char) : Sum Nat (Option Nat) :=
  scanLoop vars sym (List.range' 1 31) none

/-- The leading `rN` pattern check of `getRegister` (both variants): a letter
`r`/`R` followed by 1–2 characters, returning the numeric value when all of
them are digits and `none` (fall through to the symbolic path) otherwise. -/
def physReg? (symbol : List Char) : Option Nat :=
  let n := symbol.length
  if (symbol.headD ' ' = 'r' || symbol.headD ' ' = 'R') && 2 ≤ n && n ≤ 3 then
    let c1 := symbol.getD 1 ' '
    if isDigitC c1 then
      if n = 3 then
        let c2 := symbol.getD 2 ' '
        if isDigitC c2 then some (decDigit c1 * 10 + decDigit c2) else none
      else some (decDigit c1)
    else none
  else none

namespace Asm

/-- `getRegister` from assembler.c: physical `rN` tokens with `num < 32` are
accepted directly; otherwise the token is looked up in the variable table,
allocating the first free slot (copying at most 254 characters) when
variables are enabled. -/
def getRegister (symbol : List Char) (use_vars : Bool) (vars : VarTable) :
    Except Err (Nat × VarTable) :=
  if symbol.length = 0 then .error .emptyToken
  else
    match physReg? symbol with
    | some num =>
      if num < 32 then .ok (num, vars)
      else .error (.unknownRegister symbol)
    | none =>
      if use_vars && (isDigitC (symbol.headD ' ') || symbol.headD ' ' = '#') then
        .error (.invalidVarName symbol)
      else
        match scanVars vars symbol with
        | .inl i => .ok (i, vars)
        | .inr none => .error (.tooManyVariables symbol)
        | .inr (some empty) =>
          if use_vars then .ok (empty, vars.set empty (symbol.take 254))
          else .error (.invalidRegisterNoVars symbol)

end Asm

namespace Cmp

/-- `getRegister` from compile.c: the physical range check is `num <= 32`,
and the symbolic path only recognises `sp` and `pc`. -/
def getRegister (symbol : List Char) : Except Err Nat :=
  if symbol.length = 0 then .error .emptyToken
  else
    match physReg? symbol with
    | some num =>
      if num ≤ 32 then .ok num
      else .error (.unknownRegister symbol)
    | none =>
      if caseEq symbol (str "sp") then .ok 30
      else if caseEq symbol (str "pc") then .ok 31
      else .error (.unknownRegister symbol)

end Cmp

/-- The `strtok` delimiter set `" ,\t\r\n"`. -/
def isDelim (c : Char) : Bool := c = ' ' || c = ',' || c = '\t' || c = '\r' || c = '\n'

/-- Character-by-character accumulation of `strtok` tokens: `cur` is the
token being read; a delimiter finishes it. -/
def tokenizeGo : List Char → List Char → List (List Char)
  | [], cur => if cur.isEmpty then [] else [cur]
  | c :: cs, cur =>
    if isDelim c then (if cur.isEmpty then tokenizeGo cs [] else cur :: tokenizeGo cs [])
    else tokenizeGo cs (cur ++ [c])

/-- The token sequence produced by repeated `strtok(·, " ,\t\r\n")`. -/
def tokenize (l : List Char) : List (List Char) := tokenizeGo l []

/-- `parseNum`-then-`parseConst` resolution of a numeric operand
(assembler.c tries `parseNum` first). -/
def numOperand (tok : List Char) (ps inum : Nat) : PRes :=
  match parseNum tok with
  | .ok v => .ok v
  | .ub => .ub
  | .fail => parseConst tok ps inum

namespace Asm

/-- The operand `while (strtok...)` loop of assembler.c's `compileLine`:
per-token arity pre-check followed by the resolution switch.  Returns the
final operand count, the accumulated word and the variable table. -/
def operLoop (opcode ps inum : Nat) (uv : Bool) :
    List (List Char) → Nat → Nat → VarTable → Except Err (Nat × Nat × VarTable)
  | [], ind, ret, vars => .ok (ind, ret, vars)
  | tok :: toks, ind, ret, vars =>
    if tok.headD ' ' = ';' then .ok (ind, ret, vars)
    else if opcode = OP_FLAG then .error (.tooManyParams 0)
    else if opcode = OP_LDI && 1 ≤ ind then .error (.tooManyParams 1)
    else if (opcode = OP_NOT || opcode = OP_JMP || opcode = OP_PUSH || opcode = OP_POP)
        && 1 ≤ ind then .error (.tooManyParams 1)
    else if !(opcode = OP_LDI || opcode = OP_NOT || opcode = OP_JMP || opcode = OP_PUSH
        || opcode = OP_POP) && 2 ≤ ind then .error (.tooManyParams 2)
    else if opcode = OP_LDI then
      match numOperand tok ps inum with
      | .ub => .error .ub
      | .fail => .error (.badNumber tok)
      | .ok v =>
        if v < 0 || v ≥ 65536 then .error (.numNotInRange16 tok)
        else operLoop opcode ps inum uv toks (ind + 1)
          (fintAssign (ret ||| (v % 65536).toNat)) vars
    else if (opcode = OP_ADDI || opcode = OP_SUBI || opcode = OP_SHLI || opcode = OP_SHRI)
        && ind = 1 then
      match numOperand tok ps inum with
      | .ub => .error .ub
      | .fail => .error (.badNumber tok)
      | .ok v =>
        if v < 0 || v ≥ 64 then .error (.numNotInRange6 tok)
        else operLoop opcode ps inum uv toks (ind + 1)
          (fintAssign (ret ||| ((v % 65536).toNat <<< ((1 - ind) * 5)))) vars
    else
      match getRegister tok uv vars with
      | .error e => .error e
      | .ok (reg, vars') =>
        operLoop opcode ps inum uv toks (ind + 1)
          (fintAssign (ret ||| (reg <<< ((1 - ind) * 5)))) vars'

/-- `compileLine` from assembler.c.  `ok (none, ·)` is the status-2 result on
empty/comment-only lines; `ok (some w, ·)` carries the encoded word. -/
def compileLine (line : List Char) (ps inum : Nat) (vars : VarTable) (uv : Bool) :
    Except Err (Option Nat × VarTable) :=
  match tokenize line with
  | [] => .ok (none, vars)
  | tok :: toks =>
    if tok.headD ' ' = ';' then .ok (none, vars)
    else
      match getOperation tok with
      | none => .error (.unknownInstruction tok)
      | some opcode =>
        match operLoop opcode ps inum uv toks 0 (fintAssign ((opcode &&& 0x3F) <<< 10)) vars with
        | .error e => .error e
        | .ok (ind, ret, vars') =>
          if opcode = OP_FLAG then
            if ind ≠ 0 then .error (.tooManyParams 0) else .ok (some ret, vars')
          else if opcode = OP_LDI || opcode = OP_NOT || opcode = OP_JMP || opcode = OP_PUSH
              || opcode = OP_POP then
            if ind ≠ 1 then .error (.tooFewParams 1) else .ok (some ret, vars')
          else
            if ind ≠ 2 then .error (.tooFewParams 2) else .ok (some ret, vars')

end Asm

/-- Character-by-character accumulation of `getline` lines: each emitted line
runs up to and including its `'\n'`; a final line without a newline is kept
as is; an empty remainder yields no further line (EOF). -/
def linesGo : List Char → List Char → List (List Char)
  | [], cur => if cur.isEmpty then [] else [cur]
  | c :: cs, cur =>
    if c = '\n' then (cur ++ ['\n']) :: linesGo cs [] else linesGo cs (cur ++ [c])

/-- The successive `getline` results of a stream. -/
def linesOf (s : List Char) : List (List Char) := linesGo s []

/-- `sscanf(line, "%*s %d", &param)`: skip whitespace, skip one word, then a
`%d` conversion; `none` when the `int` parameter stays uninitialised. -/
def scanfAfterWord (line : List Char) : Option Int :=
  let t := line.dropWhile (fun c => isSpaceC c)
  if t.isEmpty then none
  else (scanfInt (t.dropWhile (fun c => !isSpaceC c))).map (·.1)

/-- `sscanf(line, "%*s %d %d", &p1, &p2)` succeeding with both conversions. -/
def scanfAfterWord2 (line : List Char) : Option (Int × Int) :=
  let t := line.dropWhile (fun c => isSpaceC c)
  if t.isEmpty then none
  else
    match scanfInt (t.dropWhile (fun c => !isSpaceC c)) with
    | none => none
    | some (p1, r) =>
      match scanfInt r with
      | none => none
      | some (p2, _) => some (p1, p2)

/-- `sscanf(line, "%*s %254s", param)`: the next word, truncated to 254
characters; `none` when there is no word (`param` stays uninitialised). -/
def scanfAfterWordStr (line : List Char) : Option (List Char) :=
  let t := line.dropWhile (fun c => isSpaceC c)
  if t.isEmpty then none
  else
    let u := (t.dropWhile (fun c => !isSpaceC c)).dropWhile (fun c => isSpaceC c)
    let w := u.takeWhile (fun c => !isSpaceC c)
    if w.isEmpty then none else some (w.take 254)

namespace Asm

/-- The filler word emitted by `#starts` padding: `0b1111110000000000`. -/
def FILLER : Nat := 0b1111110000000000

/-- The per-line body of assembler.c's `countInstructions`: `#starts` resets
the count to its parameter, `#repeat` adds `param1 * (param2 - 1)`, and any
line that is not a directive, not blank and not comment-only counts one. -/
def countLine (acc : Nat) (line : List Char) : Except Err Nat :=
  if line.headD ' ' = '#' then
    if casePrefix (str "#starts") line then
      match scanfAfterWord line with
      | none => .error .ub
      | some p => .ok (toSize p)
    else if casePrefix (str "#repeat") line then
      match scanfAfterWord2 line with
      | none => .error .ub
      | some (p1, p2) => .ok ((acc + toSize (p1 * (p2 - 1))) % 2 ^ 64)
    else .ok acc
  else
    let i := (line.takeWhile (fun c => isSpaceC c)).length
    if i < line.length && line.getD i ' ' != ';' then .ok ((acc + 1) % 2 ^ 64)
    else .ok acc

def countLoop : List (List Char) → Nat → Except Err Nat
  | [], acc => .ok acc
  | l :: ls, acc =>
    match countLine acc l with
    | .error e => .error e
    | .ok acc' => countLoop ls acc'

/-- `countInstructions` from assembler.c: the sizing pass over the whole file,
starting from `(size_t)(-1)` to compensate for the header line. -/
def countInstructions (input : List Char) : Except Err Nat :=
  countLoop (linesOf input) (toSize (-1))

/-- `fscanf(fin, "%s %d ", name, &offset)`: a whitespace-delimited name, an
`int` offset, then the trailing blank skips all following whitespace.  Any
conversion failure is the "Header line is missing" error; a name longer than
254 characters overflows `char name[255]`. -/
def fscanfHeader (s : List Char) : Except Err (List Char × Int × List Char) :=
  let t := s.dropWhile (fun c => isSpaceC c)
  let name := t.takeWhile (fun c => !isSpaceC c)
  if name.isEmpty then .error .headerMissing
  else if 254 < name.length then .error .ub
  else
    match scanfInt (t.drop name.length) with
    | none => .error .headerMissing
    | some (off, r) => .ok (name, off, r.dropWhile (fun c => isSpaceC c))

/-- `offset = rand() % ((1 << 10) - program_size)` for the random-placement
sentinel; the subtraction and modulus are `size_t` operations, and a zero
modulus is a division by zero. -/
def chooseOffset (randVal : Nat) (ps : Nat) : Except Err Int :=
  let m := sub64 1024 ps
  if m = 0 then .error .divByZero
  else .ok (toInt32 (((randVal % 2 ^ 64) % m : Nat) : Int))

/-- The mutable state of `compileFile`'s emission loop. -/
structure AState where
  inum : Nat
  vars : VarTable
  repeatWhat : Int
  repeatTimes : Int
  repeatAlready : Nat
  repeatArr : List Nat
  deriving Repr, DecidableEq

/-- Initial emission state: `instruction_num = 0`, the initialised variable
table, no active repeat, and the uninitialised 1024-word capture buffer
(modelled as zeros; the code never reads an unwritten cell). -/
def initState : AState :=
  { inum := 0, vars := initVariables, repeatWhat := 0, repeatTimes := 0,
    repeatAlready := 0, repeatArr := List.replicate 1024 0 }

/-- The body of the `#free` search over a list of slot indices: exact
(`strcmp`) comparison, first match wins. -/
def freeLoop (vars : VarTable) (param : List Char) : List Nat → Option Nat
  | [] => none
  | i :: is => if vars.getD i [] = param then some i else freeLoop vars param is

/-- The `#free` search loop of `compileFile` (`for (i = 1; i < 30; i++)`). -/
def freeScan (vars : VarTable) (param : List Char) : Option Nat :=
  freeLoop vars param (List.range' 1 29)

/-- Number of executed iterations of `while (repeat_times--)` starting from
counter value `t`, under two's-complement wrap-around of the `int`: `t` for
`t ≥ 0`, and `t + 2 ^ 32` for `t < 0` (the counter always ends at `-1`). -/
def replayRounds (t : Int) : Nat := if 0 ≤ t then t.toNat else (t + 2 ^ 32).toNat

/-- The words emitted by `rounds` iterations of the replay loop, each playing
back `block` in order.  (The guard on the empty block only short-circuits an
evaluation that would build `rounds` empty copies; `replayWords_eq_flatten`
below shows the result is the plain concatenation for every input.) -/
def replayWords (rounds : Nat) (block : List Nat) : List Nat :=
  if block.isEmpty then [] else (List.replicate rounds block).flatten

/-- The capture/replay bookkeeping run after each emitted instruction word
(assembler.c lines 360–381).  Returns the new state and the words the replay
appends after the instruction itself. -/
def repeatStep (st : AState) (w : Nat) : Except Err (AState × List Nat) :=
  if st.repeatWhat ≠ (st.repeatAlready : Int) && 1024 ≤ st.repeatAlready then .error .ub
  else
    let st1 :=
      if st.repeatWhat ≠ (st.repeatAlready : Int) then
        { st with repeatArr := st.repeatArr.set st.repeatAlready w,
                  repeatAlready := st.repeatAlready + 1 }
      else st
    if st1.repeatWhat = (st1.repeatAlready : Int) then
      let rounds := replayRounds st1.repeatTimes
      let block := st1.repeatArr.take st1.repeatWhat.toNat
      .ok ({ st1 with inum := (st1.inum + rounds * st1.repeatWhat.toNat) % 2 ^ 64,
                      repeatWhat := 0, repeatAlready := 0, repeatTimes := -1 },
           replayWords rounds block)
    else .ok (st1, [])

/-- One iteration of `compileFile`'s emission loop: append a missing final
newline, dispatch directives (`#starts` padding, `#free`, `#repeat`), and
otherwise encode the line and run the capture/replay bookkeeping.  Returns
the new state and the words emitted for this line. -/
def bodyLine (ps : Nat) (uv : Bool) (st : AState) (rawLine : List Char) :
    Except Err (AState × List Nat) :=
  let line := if rawLine.getLast? = some '\n' then rawLine else rawLine ++ ['\n']
  if line.headD ' ' = '#' then
    if casePrefix (str "#starts") line then
      match scanfAfterWord line with
      | none => .error .ub
      | some param =>
        if toSize param < st.inum then .error (.startsBack (toSize param) st.inum)
        else .ok ({ st with inum := toSize param },
                  List.replicate (toSize param - st.inum) FILLER)
    else if casePrefix (str "#free") line then
      match scanfAfterWordStr line with
      | none => .error .ub
      | some param =>
        match freeScan st.vars param with
        | some i => .ok ({ st with vars := st.vars.set i [] }, [])
        | none => .error (.freeUnused param)
    else if casePrefix (str "#repeat") line then
      match scanfAfterWord2 line with
      | none => .error .repeatNeedsTwo
      | some (p1, p2) =>
        if st.repeatWhat ≠ 0 then .error .nestedRepeat
        else .ok ({ st with repeatWhat := p1, repeatTimes := p2 - 1, repeatAlready := 0 }, [])
    else .ok (st, [])
  else
    match compileLine line ps st.inum st.vars uv with
    | .error e => .error e
    | .ok (none, vars') => .ok ({ st with vars := vars' }, [])
    | .ok (some w, vars') =>
      match repeatStep { st with vars := vars', inum := (st.inum + 1) % 2 ^ 64 } w with
      | .error e => .error e
      | .ok (st', replay) => .ok (st', w :: replay)

/-- The emission loop over the body lines, concatenating emitted words. -/
def bodyLoop (ps : Nat) (uv : Bool) : AState → List (List Char) → Except Err (AState × List Nat)
  | st, [] => .ok (st, [])
  | st, l :: ls =>
    match bodyLine ps uv st l with
    | .error e => .error e
    | .ok (st', ws) =>
      match bodyLoop ps uv st' ls with
      | .error e => .error e
      | .ok (st'', ws') => .ok (st'', ws ++ ws')

/-- `compileFile` from assembler.c: sizing pass, header parse, offset choice
(random when the offset sentinel `-1` was given), emission loop, and the
final `assert(program_size == instruction_num)`.  Returns the program name,
the emitted words, the program size and the resolved offset. -/
def compileFile (input : List Char) (randVal : Nat) (uv : Bool) :
    Except Err (List Char × List Nat × Nat × Int) :=
  match countInstructions input with
  | .error e => .error e
  | .ok ps =>
    match fscanfHeader input with
    | .error e => .error e
    | .ok (name, off0, rest) =>
      match (if off0 = -1 then chooseOffset randVal ps else .ok off0) with
      | .error e => .error e
      | .ok off =>
        match bodyLoop ps uv initState (linesOf rest) with
        | .error e => .error e
        | .ok (st, ws) =>
          if ps = st.inum then .ok (name, ws, ps, off)
          else .error (.sizeMismatch ps st.inum)

end Asm

/-- Projection of a `compileFile` result to (program size, resolved offset). -/
def sizeOffsetOf : Except Err (List Char × List Nat × Nat × Int) → Option (Nat × Int)
  | .ok (_, _, ps, off) => some (ps, off)
  | .error _ => none

/-- Projection of a `compileFile` result to the emitted word list. -/
def wordsOf : Except Err (List Char × List Nat × Nat × Int) → Option (List Nat)
  | .ok (_, ws, _, _) => some ws
  | .error _ => none

/-- A token as `strtok` can produce it inside an operand list: nonempty, free
of delimiters, and not opening a `;` comment. -/
def cleanTok (t : List Char) : Prop :=
  t ≠ [] ∧ t.headD ' ' ≠ ';' ∧ ∀ c ∈ t, isDelim c = false

instance (t : List Char) : Decidable (cleanTok t) := by
  unfold cleanTok
  infer_instance

/-- Sequential encoding of instruction lines by `compileLine`, threading the
variable table and stepping the instruction index, requiring every line to
produce a word (status 1). -/
def compileSeq (ps : Nat) (uv : Bool) :
    Nat → VarTable → List (List Char) → Option (List Nat × VarTable)
  | _, vars, [] => some ([], vars)
  | inum, vars, l :: ls =>
    match Asm.compileLine l ps inum vars uv with
    | .ok (some w, v') =>
      match compileSeq ps uv ((inum + 1) % 2 ^ 64) v' ls with
      | some (ws, vf) => some (w :: ws, vf)
      | none => none
    | _ => none

/-- Sequential symbolic-variable allocation through `getRegister`. -/
def allocSeq : VarTable → List (List Char) → Option (List Nat × VarTable)
  | vars, [] => some ([], vars)
  | vars, s :: ss =>
    match Asm.getRegister s true vars with
    | .ok (r, v') =>
      match allocSeq v' ss with
      | some (rs, vf) => some (r :: rs, vf)
      | none => none
    | .error _ => none

/-- A token that reaches `getRegister`'s variable path and is stored whole:
nonempty, not matching the physical `rN` pattern, not starting with a digit
or `#`, and within the 254-character `strncpy` limit. -/
def freshName (s : List Char) : Prop :=
  s ≠ [] ∧ physReg? s = none ∧ isDigitC (s.headD ' ') = false ∧ s.headD ' ' ≠ '#'
    ∧ s.length ≤ 254

instance (s : List Char) : Decidable (freshName s) := by
  unfold freshName
  infer_instance

/-- The word accumulated by `compileLine` for `MV dst, src`: the opcode store
followed by the two operand stores at shifts `(1 - 0) * 5` and `(1 - 1) * 5`. -/
def mvWord (r1 r2 : Nat) : Nat :=
  fintAssign (fintAssign (fintAssign ((OP_MV &&& 0x3F) <<< 10) ||| r1 <<< ((1 - 0) * 5))
    ||| r2 <<< ((1 - 1) * 5))

/-- The capture buffer after storing words into consecutive cells starting at
index `i` (the effect of the repeated `repeat_arr[repeat_already] = l`). -/
def writeSeq (arr : List Nat) (i : Nat) : List Nat → List Nat
  | [] => arr
  | w :: ws => writeSeq (arr.set i w) (i + 1) ws

/-- The table produced by storing names (each truncated to 254 characters,
as `strncpy` does) into consecutive slots starting at `start`. -/
def storeSeq (vars : VarTable) (start : Nat) : List (List Char) → VarTable
  | [] => vars
  | s :: ss => storeSeq (vars.set start (s.take 254)) (start + 1) ss

/-! ### Characterisation of the variable-table scan loop -/

/-- The first empty slot of the table among the indices `[i, 32)`. -/
def firstEmptyFrom (vars : VarTable) (i : Nat) : Option Nat :=
  (List.range' i (32 - i)).find? (fun j => (vars.getD j []).isEmpty)

theorem range'32_succ {i : Nat} (h : i < 32) :
    List.range' i (32 - i) = i :: List.range' (i + 1) (32 - (i + 1)) := by
  have h1 : 32 - i = (32 - (i + 1)) + 1 := by omega
  rw [h1, List.range'_succ]

theorem scanLoop_step_match {vars : VarTable} {sym : List Char} {i : Nat}
    {is : List Nat} {e : Option Nat} (hm : caseEq (vars.getD i []) sym = true) :
    scanLoop vars sym (i :: is) e = .inl i := by
  rw [scanLoop, if_pos hm]

theorem scanLoop_step_skip {vars : VarTable} {sym : List Char} {i : Nat}
    {is : List Nat} {e : Option Nat} (hm : caseEq (vars.getD i []) sym = false) :
    scanLoop vars sym (i :: is) e
      = scanLoop vars sym is (if e.isNone && (vars.getD i []).isEmpty then some i else e) := by
  rw [scanLoop]
  simp only [hm, Bool.false_eq_true, if_false]

theorem firstEmptyFrom_stop {vars : VarTable} {i : Nat} (h : ¬ i < 32) :
    firstEmptyFrom vars i = none := by
  rw [firstEmptyFrom]
  have h0 : 32 - i = 0 := by omega
  rw [h0]
  rfl

theorem firstEmptyFrom_hit {vars : VarTable} {i : Nat} (h : i < 32)
    (he : (vars.getD i []).isEmpty = true) : firstEmptyFrom vars i = some i := by
  rw [firstEmptyFrom, range'32_succ h]
  exact List.find?_cons_of_pos _ he

theorem firstEmptyFrom_skip {vars : VarTable} {i : Nat} (h : i < 32)
    (he : (vars.getD i []).isEmpty = false) :
    firstEmptyFrom vars i = firstEmptyFrom vars (i + 1) := by
  rw [firstEmptyFrom, range'32_succ h, firstEmptyFrom]
  exact List.find?_cons_of_neg _ (fun hc => by
    have hc' : (vars.getD i []).isEmpty = true := hc
    rw [he] at hc'
    cases hc')

/-- The scan returns the first case-insensitive match. -/
theorem scanVars_found (vars : VarTable) (sym : List Char) (j₀ : Nat) (hj : j₀ < 32)
    (hm : caseEq (vars.getD j₀ []) sym = true) :
    ∀ n i e, 32 - i = n → i ≤ j₀ →
      (∀ j, i ≤ j → j < j₀ → caseEq (vars.getD j []) sym = false) →
      scanLoop vars sym (List.range' i (32 - i)) e = .inl j₀ := by
  intro n
  induction n with
  | zero =>
    intro i e h0 hle _
    omega
  | succ n ih =>
    intro i e h0 hle hprev
    rw [range'32_succ (by omega)]
    by_cases hij : i = j₀
    · subst hij
      exact scanLoop_step_match hm
    · rw [scanLoop_step_skip (hprev i le_rfl (by omega))]
      exact ih (i + 1) _ (by omega) (by omega) (fun j hj1 hj2 => hprev j (by omega) hj2)

/-- With no match at or after `i`, a scan that has already remembered an
empty slot reports that slot. -/
theorem scanVars_nomatch_some (vars : VarTable) (sym : List Char) (k : Nat) :
    ∀ n i, 32 - i = n →
      (∀ j, i ≤ j → j < 32 → caseEq (vars.getD j []) sym = false) →
      scanLoop vars sym (List.range' i (32 - i)) (some k) = .inr (some k) := by
  intro n
  induction n with
  | zero =>
    intro i h0 _
    rw [h0]
    rfl
  | succ n ih =>
    intro i h0 hm
    have hi : i < 32 := by omega
    rw [range'32_succ hi, scanLoop_step_skip (hm i le_rfl hi)]
    simpa using ih (i + 1) (by omega) (fun j h1 h2 => hm j (by omega) h2)

/-- With no match at or after `i` and no empty slot remembered yet, the scan
reports the first empty slot from `i` on. -/
theorem scanVars_nomatch_none (vars : VarTable) (sym : List Char) :
    ∀ n i, 32 - i = n →
      (∀ j, i ≤ j → j < 32 → caseEq (vars.getD j []) sym = false) →
      scanLoop vars sym (List.range' i (32 - i)) none = .inr (firstEmptyFrom vars i) := by
  intro n
  induction n with
  | zero =>
    intro i h0 _
    rw [firstEmptyFrom_stop (by omega), h0]
    rfl
  | succ n ih =>
    intro i h0 hm
    have hi : i < 32 := by omega
    rw [range'32_succ hi, scanLoop_step_skip (hm i le_rfl hi)]
    by_cases he : (vars.getD i []).isEmpty
    · rw [firstEmptyFrom_hit hi he]
      simp only [he, Option.isNone_none, Bool.and_self, if_pos]
      exact scanVars_nomatch_some vars sym i (32 - (i + 1)) (i + 1) rfl
        (fun j h1 h2 => hm j (by omega) h2)
    · rw [firstEmptyFrom_skip hi (by simpa using he)]
      simp only [he, Option.isNone_none, Bool.true_and, Bool.false_eq_true, if_false]
      exact ih (i + 1) (by omega) (fun j h1 h2 => hm j (by omega) h2)

/-- Both possible scan results stay below 32. -/
theorem scanVars_lt (vars : VarTable) (sym : List Char) :
    ∀ n i e, 32 - i = n → (∀ k, e = some k → k < 32) →
      (∀ j, scanLoop vars sym (List.range' i (32 - i)) e = .inl j → j < 32) ∧
      (∀ k, scanLoop vars sym (List.range' i (32 - i)) e = .inr (some k) → k < 32) := by
  intro n
  induction n with
  | zero =>
    intro i e h0 he
    rw [h0]
    constructor
    · intro j hj
      cases hj
    · intro k hk
      injection hk with hk
      exact he k hk
  | succ n ih =>
    intro i e h0 he
    have hi : i < 32 := by omega
    rw [range'32_succ hi]
    by_cases hm : caseEq (vars.getD i []) sym
    · rw [scanLoop_step_match hm]
      constructor
      · intro j hj
        injection hj with hj
        omega
      · intro k hk
        cases hk
    · rw [scanLoop_step_skip (by simpa using hm)]
      refine ih (i + 1) _ (by omega) ?_
      intro k hk
      by_cases hcase : e.isNone && (vars.getD i []).isEmpty
      · rw [if_pos hcase] at hk
        injection hk with hk
        omega
      · rw [if_neg hcase] at hk
        exact he k hk

/-- `scanVars` written through the index range the lemmas speak about. -/
theorem scanVars_eq_scanLoop (vars : VarTable) (sym : List Char) :
    scanVars vars sym = scanLoop vars sym (List.range' 1 (32 - 1)) none := rfl

/-- Any register slot produced by assembler.c's `getRegister` is below 32. -/
theorem Asm.getRegister_lt {s : List Char} {uv : Bool} {vars v' : VarTable} {r : Nat}
    (h : Asm.getRegister s uv vars = .ok (r, v')) : r < 32 := by
  rw [Asm.getRegister] at h
  by_cases h0 : s.length = 0
  · rw [if_pos h0] at h; cases h
  · rw [if_neg h0] at h
    match hp : physReg? s with
    | some num =>
      simp only [hp] at h
      by_cases hn : num < 32
      · rw [if_pos hn] at h
        injection h with h
        injection h with h1 h2
        omega
      · rw [if_neg hn] at h; cases h
    | none =>
      simp only [hp] at h
      by_cases hdig : uv && (isDigitC (s.headD ' ') || s.headD ' ' = '#')
      · rw [if_pos hdig] at h; cases h
      · rw [if_neg hdig] at h
        rw [scanVars_eq_scanLoop] at h
        have hlt := scanVars_lt vars s (32 - 1) 1 none rfl (fun k hk => by cases hk)
        match hscan : scanLoop vars s (List.range' 1 (32 - 1)) none with
        | .inl i =>
          simp only [hscan] at h
          injection h with h
          injection h with h1 h2
          subst h1
          exact hlt.1 i hscan
        | .inr none => simp only [hscan] at h; cases h
        | .inr (some empty) =>
          simp only [hscan] at h
          by_cases huv : uv
          · rw [if_pos huv] at h
            injection h with h
            injection h with h1 h2
            subst h1
            exact hlt.2 empty hscan
          · rw [if_neg huv] at h; cases h

end Battel

namespace Battel

/-! ### Shared facts about the emitted words -/

theorem toInt32_small {v : Int} (h0 : 0 ≤ v) (h1 : v < 2 ^ 31) : toInt32 v = v := by
  simp only [toInt32]
  rw [Int.emod_eq_of_lt h0 (by omega), if_pos h1]

theorem replayWords_eq_flatten (rounds : Nat) (block : List Nat) :
    Asm.replayWords rounds block = (List.replicate rounds block).flatten := by
  rw [Asm.replayWords]
  by_cases hb : block.isEmpty
  · rw [if_pos hb]
    rw [List.isEmpty_iff] at hb
    subst hb
    induction rounds with
    | zero => rfl
    | succ n ih =>
      rw [List.replicate_succ, List.flatten_cons, List.nil_append]
      exact ih
  · rw [if_neg hb]

/-! ### C3 -/

/-- **C3** For `rN` tokens, assembler.c's `getRegister` accepts exactly
`0 ≤ N ≤ 31` and rejects `N ≥ 32` with an unknown-register error; but
compile.c's `getRegister` accepts `r32` and returns slot 32, contradicting
the claimed canonical 0–31 range (the spec's flagged off-by-one). -/
theorem c3_register_range_bug :
    Cmp.getRegister (str "r32") = .ok 32 ∧
    Cmp.getRegister (str "r33") = .error (.unknownRegister (str "r33")) ∧
    Asm.getRegister (str "r32") true initVariables
      = .error (.unknownRegister (str "r32")) ∧
    Asm.getRegister (str "r31") true initVariables = .ok (31, initVariables) ∧
    Asm.getRegister (str "r0") true initVariables = .ok (0, initVariables) :=
  ⟨rfl, rfl, rfl, rfl, rfl⟩

/-! ### C9 -/

/-- **C9 (amended)** When the program size is below 1024 (a nonempty
placement window), the randomly chosen offset is the random value reduced
modulo `1024 - programSize`, hence inside `[0, 1024 - programSize)`, for
every value of the random source. -/
theorem c9_random_offset_window (randVal ps : Nat) (h : ps < 1024) :
    Asm.chooseOffset randVal ps
      = .ok (((randVal % 2 ^ 64) % (1024 - ps) : Nat) : Int) ∧
    (randVal % 2 ^ 64) % (1024 - ps) < 1024 - ps := by
  have hm : sub64 1024 ps = 1024 - ps := by
    rw [sub64]
    have h1 : ps % 2 ^ 64 = ps := Nat.mod_eq_of_lt (by omega)
    rw [h1]
    omega
  have hpos : 0 < 1024 - ps := by omega
  constructor
  · rw [Asm.chooseOffset, hm, if_neg (by omega)]
    have hlt : (randVal % 2 ^ 64) % (1024 - ps) < 2 ^ 31 := by
      have := Nat.mod_lt (randVal % 2 ^ 64) hpos
      omega
    rw [toInt32_small (Int.ofNat_nonneg _) (by exact_mod_cast hlt)]
  · exact Nat.mod_lt _ hpos

end Battel

namespace Battel

theorem c9_random_offset_window_witness :
    Asm.chooseOffset 7 1 = .ok (((7 % 2 ^ 64) % (1024 - 1) : Nat) : Int) ∧
    (7 % 2 ^ 64) % (1024 - 1) < 1024 - 1 :=
  c9_random_offset_window 7 1 (by decide)

/-- A complete program with the random-placement sentinel whose size (1026)
exceeds the 1024-word window: assembly succeeds, the chosen offset is 0, and
the claimed bound `offset < 1024 - programSize` is violated because the
window is empty (the `size_t` subtraction wraps instead of failing). -/
theorem c9_random_offset_counterexample :
    sizeOffsetOf (Asm.compileFile (str "x -1\n#starts 1025\nFLAG\n") 0 true)
      = some (1026, 0) ∧ ¬((0 : Int) < 1024 - 1026) :=
  ⟨rfl, by decide⟩

end Battel

namespace Battel

/-! ### C10 -/

theorem initVars_getD_lt30 : ∀ j, j < 30 → initVariables.getD j [] = [] := by decide

theorem initVars_getD_30 : initVariables.getD 30 [] = str "sp" := by decide

theorem initVars_getD_31 : initVariables.getD 31 [] = str "pc" := by decide

/-- `caseEq x s` is false for an empty table slot and nonempty token. -/
theorem caseEq_nil_of_ne_nil {s : List Char} (h : s ≠ []) : caseEq [] s = false := by
  cases s with
  | nil => exact absurd rfl h
  | cons c cs => rfl

/-- Any string case-equal to `sp` is a two-character string whose characters
lower to `s` and `p`. -/
theorem eq_two_of_lowerS {s : List Char} {x y : Char} (hs : lowerS s = [x, y]) :
    ∃ a b, s = [a, b] ∧ lowerC a = x ∧ lowerC b = y := by
  cases s with
  | nil => simp [lowerS] at hs
  | cons a t =>
    cases t with
    | nil => simp [lowerS] at hs
    | cons b t2 =>
      cases t2 with
      | cons c t3 => simp [lowerS] at hs
      | nil =>
        simp only [lowerS, List.map_cons, List.map_nil] at hs
        injection hs with ha hs2
        injection hs2 with hb _
        exact ⟨a, b, rfl, ha, hb⟩

/-- A token whose first character does not lower to `r` never matches the
physical `rN` pattern. -/
theorem physReg?_none_of_head {a b : Char} (h : lowerC a ≠ 'r') :
    physReg? [a, b] = none := by
  have h1 : a ≠ 'r' := fun hc => by rw [hc] at h; exact h rfl
  have h2 : a ≠ 'R' := fun hc => by rw [hc] at h; exact h rfl
  simp [physReg?, h1, h2]

/-- **C10** With symbolic variables disabled, any casing of `sp` resolves to
slot 30 and any casing of `pc` to slot 31 (both pre-bound by
`init_variables`), while every other token that does not match the physical
register pattern is rejected with the invalid-register error. -/
theorem c10_novars_prebound :
    (∀ s, lowerS s = str "sp" → Asm.getRegister s false initVariables
      = .ok (30, initVariables)) ∧
    (∀ s, lowerS s = str "pc" → Asm.getRegister s false initVariables
      = .ok (31, initVariables)) ∧
    (∀ s, s ≠ [] → physReg? s = none → lowerS s ≠ str "sp" → lowerS s ≠ str "pc" →
      Asm.getRegister s false initVariables
        = .error (.invalidRegisterNoVars s)) := by
  have hnil : ∀ (s : List Char), s ≠ [] → ∀ j, 1 ≤ j → j < 30 →
      caseEq (initVariables.getD j []) s = false := by
    intro s hs j h1 h2
    rw [initVars_getD_lt30 j h2]
    exact caseEq_nil_of_ne_nil hs
  refine ⟨?_, ?_, ?_⟩
  · intro s hs
    obtain ⟨a, b, rfl, ha, hb⟩ := eq_two_of_lowerS hs
    have hphys : physReg? [a, b] = none :=
      physReg?_none_of_head (by rw [ha]; decide)
    have hscan : scanVars initVariables [a, b] = .inl 30 := by
      rw [scanVars_eq_scanLoop]
      refine scanVars_found initVariables [a, b] 30 (by omega) ?_ 31 1 none rfl
        (by omega) (hnil [a, b] (by simp))
      rw [initVars_getD_30]
      simp [caseEq, lowerS, ha, hb, str]
      decide
    rw [Asm.getRegister, if_neg (by simp)]
    simp only [hphys, hscan, Bool.false_and, Bool.false_eq_true, if_false]
  · intro s hs
    obtain ⟨a, b, rfl, ha, hb⟩ := eq_two_of_lowerS hs
    have hphys : physReg? [a, b] = none :=
      physReg?_none_of_head (by rw [ha]; decide)
    have hscan : scanVars initVariables [a, b] = .inl 31 := by
      rw [scanVars_eq_scanLoop]
      refine scanVars_found initVariables [a, b] 31 (by omega) ?_ 31 1 none rfl
        (by omega) ?_
      · rw [initVars_getD_31]
        simp [caseEq, lowerS, ha, hb, str]
        decide
      · intro j h1 h2
        rcases (by omega : j < 30 ∨ j = 30) with h | h
        · exact hnil [a, b] (by simp) j h1 h
        · subst h
          rw [initVars_getD_30]
          simp [caseEq, lowerS, ha, hb, str]
          decide
    rw [Asm.getRegister, if_neg (by simp)]
    simp only [hphys, hscan, Bool.false_and, Bool.false_eq_true, if_false]
  · intro s hs0 hphys hsp hpc
    have hlow : lowerS (str "sp") = str "sp" := by decide
    have hlow2 : lowerS (str "pc") = str "pc" := by decide
    have hscan : scanVars initVariables s = .inr (firstEmptyFrom initVariables 1) := by
      rw [scanVars_eq_scanLoop]
      refine scanVars_nomatch_none initVariables s 31 1 rfl ?_
      intro j h1 h2
      rcases (by omega : j < 30 ∨ j = 30 ∨ j = 31) with h | h | h
      · exact hnil s hs0 j h1 h
      · subst h
        rw [initVars_getD_30, caseEq, hlow]
        exact beq_eq_false_iff_ne.mpr (fun hcon => hsp hcon.symm)
      · subst h
        rw [initVars_getD_31, caseEq, hlow2]
        exact beq_eq_false_iff_ne.mpr (fun hcon => hpc hcon.symm)
    have hfirst : firstEmptyFrom initVariables 1 = some 1 := by decide
    rw [Asm.getRegister, if_neg (by simpa using hs0)]
    rw [hfirst] at hscan
    simp only [hphys, hscan, Bool.false_and, Bool.false_eq_true, if_false]

theorem c10_novars_prebound_witness :
    Asm.getRegister (str "SP") false initVariables = .ok (30, initVariables) ∧
    Asm.getRegister (str "Pc") false initVariables = .ok (31, initVariables) ∧
    Asm.getRegister (str "foo") false initVariables
      = .error (.invalidRegisterNoVars (str "foo")) :=
  ⟨c10_novars_prebound.1 _ (by decide),
   c10_novars_prebound.2.1 _ (by decide),
   c10_novars_prebound.2.2 _ (by decide) (by decide) (by decide) (by decide)⟩

end Battel

namespace Battel

/-! ### C8 -/

theorem range'_sub_succ {i m : Nat} (h : i < m) :
    List.range' i (m - i) = i :: List.range' (i + 1) (m - (i + 1)) := by
  have h1 : m - i = (m - (i + 1)) + 1 := by omega
  rw [h1, List.range'_succ]

/-- The `#free` loop returns the first exact match among slots `[i, 30)`. -/
theorem Asm.freeLoop_found (vars : VarTable) (param : List Char) (j₀ : Nat) (hj : j₀ < 30)
    (hm : vars.getD j₀ [] = param) :
    ∀ n i, 30 - i = n → i ≤ j₀ →
      (∀ j, i ≤ j → j < j₀ → vars.getD j [] ≠ param) →
      Asm.freeLoop vars param (List.range' i (30 - i)) = some j₀ := by
  intro n
  induction n with
  | zero =>
    intro i h0 hle _
    omega
  | succ n ih =>
    intro i h0 hle hprev
    rw [range'_sub_succ (by omega), Asm.freeLoop]
    by_cases hij : i = j₀
    · subst hij
      rw [if_pos hm]
    · rw [if_neg (hprev i le_rfl (by omega))]
      exact ih (i + 1) (by omega) (by omega) (fun j h1 h2 => hprev j (by omega) h2)

/-- The `#free` loop fails when no slot in `[i, 30)` matches exactly. -/
theorem Asm.freeLoop_nomatch (vars : VarTable) (param : List Char) :
    ∀ n i, 30 - i = n →
      (∀ j, i ≤ j → j < 30 → vars.getD j [] ≠ param) →
      Asm.freeLoop vars param (List.range' i (30 - i)) = none := by
  intro n
  induction n with
  | zero =>
    intro i h0 _
    rw [h0]
    rfl
  | succ n ih =>
    intro i h0 hm
    rw [range'_sub_succ (by omega), Asm.freeLoop, if_neg (hm i le_rfl (by omega))]
    exact ih (i + 1) (by omega) (fun j h1 h2 => hm j (by omega) h2)

theorem Asm.freeScan_eq_freeLoop (vars : VarTable) (param : List Char) :
    Asm.freeScan vars param = Asm.freeLoop vars param (List.range' 1 (30 - 1)) := rfl

/-- **C8 (amended)** Resolution of a bound symbolic name is case-insensitive:
any casing of the stored name returns its slot.  The `#free` directive,
however, matches the stored name case-SENSITIVELY (`strcmp`): it frees the
first slot whose stored bytes equal the parameter exactly, and errors (naming
the variable) when no slot matches exactly — including when only a
differently-cased binding exists. -/
theorem c8_binding_case_sensitivity :
    (∀ (vars : VarTable) (sym : List Char) (i : Nat) (uv : Bool), 1 ≤ i → i < 32 →
      sym ≠ [] → physReg? sym = none →
      isDigitC (sym.headD ' ') = false → sym.headD ' ' ≠ '#' →
      caseEq (vars.getD i []) sym = true →
      (∀ j, 1 ≤ j → j < i → caseEq (vars.getD j []) sym = false) →
      Asm.getRegister sym uv vars = .ok (i, vars)) ∧
    (∀ (vars : VarTable) (param : List Char) (i : Nat), 1 ≤ i → i < 30 →
      vars.getD i [] = param →
      (∀ j, 1 ≤ j → j < i → vars.getD j [] ≠ param) →
      Asm.freeScan vars param = some i) ∧
    (∀ (vars : VarTable) (param : List Char),
      (∀ j, 1 ≤ j → j < 30 → vars.getD j [] ≠ param) →
      Asm.freeScan vars param = none) := by
  refine ⟨?_, ?_, ?_⟩
  · intro vars sym i uv h1 h2 hne hphys hd1 hd2 hm hprev
    have hscan : scanVars vars sym = .inl i := by
      rw [scanVars_eq_scanLoop]
      exact scanVars_found vars sym i h2 hm 31 1 none rfl h1 hprev
    rw [Asm.getRegister, if_neg (by simpa using hne)]
    simp only [hphys, hscan, hd1, hd2, Bool.or_self, Bool.and_false, Bool.false_eq_true,
      if_false, decide_eq_true_eq, decide_False, Bool.or_false, Bool.false_or]
  · intro vars param i h1 h2 hm hprev
    rw [Asm.freeScan_eq_freeLoop]
    exact Asm.freeLoop_found vars param i h2 hm 29 1 rfl h1 hprev
  · intro vars param hm
    rw [Asm.freeScan_eq_freeLoop]
    exact Asm.freeLoop_nomatch vars param 29 1 rfl hm

theorem c8_binding_case_sensitivity_witness :
    Asm.getRegister (str "fOO") true (initVariables.set 1 (str "Foo"))
      = .ok (1, initVariables.set 1 (str "Foo")) ∧
    Asm.freeScan (initVariables.set 1 (str "Foo")) (str "Foo") = some 1 ∧
    Asm.freeScan (initVariables.set 1 (str "Foo")) (str "bar") = none :=
  ⟨c8_binding_case_sensitivity.1 _ _ 1 true (by decide) (by decide) (by decide)
      (by decide) (by decide) (by decide) (by decide)
      (fun j hj1 hj2 => absurd (Nat.lt_of_lt_of_le hj2 hj1) (by omega)),
   c8_binding_case_sensitivity.2.1 _ _ 1 (by decide) (by decide) (by decide)
      (fun j hj1 hj2 => absurd (Nat.lt_of_lt_of_le hj2 hj1) (by omega)),
   c8_binding_case_sensitivity.2.2 _ _ (by decide)⟩

/-- Binding `A` (stored with its original casing) and then running
`#free a` does not release the binding: the exact-match search fails and the
directive reports the unused-variable error, refuting case-insensitive
release. -/
theorem c8_free_case_counterexample :
    Asm.getRegister (str "A") true initVariables
      = .ok (1, initVariables.set 1 (str "A")) ∧
    Asm.getRegister (str "a") true (initVariables.set 1 (str "A"))
      = .ok (1, initVariables.set 1 (str "A")) ∧
    Asm.freeScan (initVariables.set 1 (str "A")) (str "a") = none ∧
    Asm.bodyLine 0 true { Asm.initState with vars := initVariables.set 1 (str "A") }
        (str "#free a\n")
      = .error (.freeUnused (str "a")) :=
  ⟨rfl, rfl, rfl, rfl⟩

end Battel

namespace Battel

/-! ### C7 -/

theorem initVariables_length : initVariables.length = 32 := by decide

theorem getD_set_self {l : VarTable} {i : Nat} (h : i < l.length) (a : List Char) :
    (l.set i a).getD i [] = a := by
  rw [List.getD_eq_getElem?_getD, List.getElem?_set_self h]
  rfl

theorem getD_set_ne {l : VarTable} {i j : Nat} (h : i ≠ j) (a : List Char) :
    (l.set i a).getD j [] = l.getD j [] := by
  rw [List.getD_eq_getElem?_getD, List.getElem?_set_ne h, ← List.getD_eq_getElem?_getD]

theorem caseEq_self (a : List Char) : caseEq a a = true := by
  simp [caseEq]

theorem ne_of_caseEq_false {a b : List Char} (h : caseEq a b = false) : a ≠ b := by
  intro hab
  subst hab
  rw [caseEq_self a] at h
  cases h

theorem storeSeq_length (ns : List (List Char)) :
    ∀ (vars : VarTable) (start : Nat), (storeSeq vars start ns).length = vars.length := by
  induction ns with
  | nil => intro vars start; rfl
  | cons s ss ih =>
    intro vars start
    rw [storeSeq, ih, List.length_set]

theorem storeSeq_getD_low (ns : List (List Char)) :
    ∀ (vars : VarTable) (start j : Nat), j < start →
      (storeSeq vars start ns).getD j [] = vars.getD j [] := by
  induction ns with
  | nil => intro vars start j h; rfl
  | cons s ss ih =>
    intro vars start j h
    rw [storeSeq, ih _ _ _ (by omega), getD_set_ne (by omega)]

theorem storeSeq_getD_high (ns : List (List Char)) :
    ∀ (vars : VarTable) (start j : Nat), start + ns.length ≤ j →
      (storeSeq vars start ns).getD j [] = vars.getD j [] := by
  induction ns with
  | nil => intro vars start j h; rfl
  | cons s ss ih =>
    intro vars start j h
    simp only [List.length_cons] at h
    rw [storeSeq, ih _ _ _ (by omega), getD_set_ne (by omega)]

theorem storeSeq_getD_mid (ns : List (List Char)) :
    ∀ (vars : VarTable) (start j : Nat), start ≤ j → j < start + ns.length →
      start + ns.length ≤ vars.length →
      (storeSeq vars start ns).getD j [] = (ns.getD (j - start) []).take 254 := by
  induction ns with
  | nil =>
    intro vars start j h1 h2 h3
    simp only [List.length_nil, Nat.add_zero] at h2
    omega
  | cons s ss ih =>
    intro vars start j h1 h2 h3
    simp only [List.length_cons] at h2 h3
    by_cases hj : j = start
    · subst hj
      rw [storeSeq, storeSeq_getD_low ss _ _ _ (by omega), Nat.sub_self,
        getD_set_self (by omega)]
      rfl
    · rw [storeSeq, ih _ _ _ (by omega) (by omega) (by rw [List.length_set]; omega)]
      have hs : j - start = (j - (start + 1)) + 1 := by omega
      rw [hs]
      rfl

theorem firstEmptyFrom_some_spec (vars : VarTable) (k : Nat) (hk : k < 32)
    (hek : (vars.getD k []).isEmpty = true) :
    ∀ n i, k - i = n → i ≤ k →
      (∀ j, i ≤ j → j < k → (vars.getD j []).isEmpty = false) →
      firstEmptyFrom vars i = some k := by
  intro n
  induction n with
  | zero =>
    intro i h0 hle _
    have : i = k := by omega
    subst this
    exact firstEmptyFrom_hit hk hek
  | succ n ih =>
    intro i h0 hle hprev
    rw [firstEmptyFrom_skip (by omega) (hprev i le_rfl (by omega))]
    exact ih (i + 1) (by omega) (by omega) (fun j h1 h2 => hprev j (by omega) h2)

theorem firstEmptyFrom_none_spec (vars : VarTable) :
    ∀ n i, 32 - i = n →
      (∀ j, i ≤ j → j < 32 → (vars.getD j []).isEmpty = false) →
      firstEmptyFrom vars i = none := by
  intro n
  induction n with
  | zero =>
    intro i h0 _
    exact firstEmptyFrom_stop (by omega)
  | succ n ih =>
    intro i h0 hm
    rw [firstEmptyFrom_skip (by omega) (hm i le_rfl (by omega))]
    exact ih (i + 1) (by omega) (fun j h1 h2 => hm j (by omega) h2)

/-- A fresh symbolic name (matching no bound name) allocates the first free
slot, or reports the too-many-variables error when the table has none. -/
theorem getRegister_fresh (vars : VarTable) (m : List Char) (hm : freshName m)
    (hnomatch : ∀ j, 1 ≤ j → j < 32 → caseEq (vars.getD j []) m = false) :
    (∀ k, firstEmptyFrom vars 1 = some k →
      Asm.getRegister m true vars = .ok (k, vars.set k (m.take 254))) ∧
    (firstEmptyFrom vars 1 = none →
      Asm.getRegister m true vars = .error (.tooManyVariables m)) := by
  obtain ⟨hne, hphys, hd1, hd2, hlen⟩ := hm
  have hbase : scanVars vars m = .inr (firstEmptyFrom vars 1) := by
    rw [scanVars_eq_scanLoop]
    exact scanVars_nomatch_none vars m 31 1 rfl hnomatch
  have hcond : ¬((true && (isDigitC (m.headD ' ') || decide (m.headD ' ' = '#'))) = true) := by
    simp only [Bool.true_and, Bool.or_eq_true, decide_eq_true_eq]
    rintro (h | h)
    · rw [hd1] at h; cases h
    · exact hd2 h
  constructor
  · intro k hf
    rw [hf] at hbase
    rw [Asm.getRegister, if_neg (by simpa using hne)]
    simp only [hphys, hbase]
    rw [if_neg hcond]
    simp
  · intro hf
    rw [hf] at hbase
    rw [Asm.getRegister, if_neg (by simpa using hne)]
    simp only [hphys, hbase]
    rw [if_neg hcond]

theorem storeSeq_append (xs ys : List (List Char)) :
    ∀ (vars : VarTable) (start : Nat),
      storeSeq vars start (xs ++ ys) = storeSeq (storeSeq vars start xs) (start + xs.length) ys := by
  induction xs with
  | nil => intro vars start; simp [storeSeq]
  | cons x xs ih =>
    intro vars start
    rw [List.cons_append, storeSeq, storeSeq, ih]
    congr 1
    simp only [List.length_cons]
    omega

/-- Allocating a run of fresh, pairwise case-distinct names after `done` have
been stored assigns consecutive slots and stores the names in order. -/
theorem allocSeq_spec (rest : List (List Char)) :
    ∀ done : List (List Char),
      (done ++ rest).length ≤ 29 →
      (∀ s ∈ done ++ rest, freshName s ∧ caseEq (str "sp") s = false ∧
        caseEq (str "pc") s = false) →
      (done ++ rest).Pairwise (fun a b => caseEq a b = false) →
      allocSeq (storeSeq initVariables 1 done) rest
        = some (List.range' (done.length + 1) rest.length,
            storeSeq initVariables 1 (done ++ rest)) := by
  induction rest with
  | nil =>
    intro done h1 h2 h3
    simp [allocSeq]
  | cons m rest2 ih =>
    intro done hlen hfresh hdist
    have hmm : m ∈ done ++ m :: rest2 := by simp
    obtain ⟨hmfresh, hmsp, hmpc⟩ := hfresh m hmm
    have hmne : m ≠ [] := hmfresh.1
    have hlen2 : (done ++ m :: rest2).length = done.length + rest2.length + 1 := by
      simp; omega
    have hk29 : done.length + 1 ≤ 29 := by
      rw [hlen2] at hlen; omega
    have hTgetD_mid : ∀ j, 1 ≤ j → j < done.length + 1 →
        (storeSeq initVariables 1 done).getD j []
          = (done.getD (j - 1) []).take 254 := by
      intro j h1 h2
      exact storeSeq_getD_mid done initVariables 1 j h1 (by omega)
        (by rw [initVariables_length]; omega)
    have hTgetD_high : ∀ j, done.length + 1 ≤ j →
        (storeSeq initVariables 1 done).getD j [] = initVariables.getD j [] := by
      intro j hj
      exact storeSeq_getD_high done initVariables 1 j (by omega)
    have hdone_mem : ∀ j, j < done.length → done.getD j [] ∈ done ++ m :: rest2 := by
      intro j hj
      apply List.mem_append_left
      rw [List.getD_eq_getElem?_getD, List.getElem?_eq_getElem hj]
      exact List.getElem_mem hj
    have hnomatch : ∀ j, 1 ≤ j → j < 32 →
        caseEq ((storeSeq initVariables 1 done).getD j []) m = false := by
      intro j h1 h2
      rcases (by omega : j < done.length + 1 ∨ (done.length + 1 ≤ j ∧ j < 30) ∨ j = 30 ∨ j = 31)
        with h | ⟨ha, hb⟩ | h | h
      · rw [hTgetD_mid j h1 h]
        have hjlt : j - 1 < done.length := by omega
        have hfr := (hfresh _ (hdone_mem (j - 1) hjlt)).1
        rw [List.take_of_length_le hfr.2.2.2.2]
        have hmemD : done.getD (j - 1) [] ∈ done := by
          rw [List.getD_eq_getElem?_getD, List.getElem?_eq_getElem hjlt]
          exact List.getElem_mem hjlt
        exact (List.pairwise_append.mp hdist).2.2 _ hmemD m (by simp)
      · rw [hTgetD_high j ha, initVars_getD_lt30 j hb]
        exact caseEq_nil_of_ne_nil hmne
      · subst h
        rw [hTgetD_high 30 (by omega), initVars_getD_30]
        exact hmsp
      · subst h
        rw [hTgetD_high 31 (by omega), initVars_getD_31]
        exact hmpc
    have hEmpty : firstEmptyFrom (storeSeq initVariables 1 done) 1
        = some (done.length + 1) := by
      refine firstEmptyFrom_some_spec _ (done.length + 1) (by omega) ?_
        done.length 1 (by omega) (by omega) ?_
      · rw [hTgetD_high _ le_rfl, initVars_getD_lt30 _ (by omega)]
        rfl
      · intro j h1 h2
        rw [hTgetD_mid j h1 (by omega)]
        have hjlt : j - 1 < done.length := by omega
        have hfr := (hfresh _ (hdone_mem (j - 1) hjlt)).1
        rw [List.take_of_length_le hfr.2.2.2.2]
        cases hd : done.getD (j - 1) [] with
        | nil => exact absurd hd hfr.1
        | cons c cs => rfl
    have hstep := (getRegister_fresh _ m hmfresh hnomatch).1 _ hEmpty
    have hT2 : (storeSeq initVariables 1 done).set (done.length + 1) (m.take 254)
        = storeSeq initVariables 1 (done ++ [m]) := by
      rw [storeSeq_append]
      simp only [storeSeq]
      congr 1
      omega
    have hassoc : (done ++ [m]) ++ rest2 = done ++ m :: rest2 := by
      rw [List.append_assoc]
      rfl
    have hrec := ih (done ++ [m]) (by rw [hassoc]; exact hlen)
      (by rw [hassoc]; exact hfresh) (by rw [hassoc]; exact hdist)
    rw [hassoc] at hrec
    have hfin : List.range' (done.length + 1) (m :: rest2).length
        = (done.length + 1) :: List.range' ((done ++ [m]).length + 1) rest2.length := by
      simp only [List.length_cons, List.length_append, List.length_nil]
      rw [List.range'_succ]
    rw [allocSeq]
    simp only [hstep, hT2, hrec, hfin]

/-- Lookup misses on the fully/partially stored table for a name case-distinct
from every stored name (and from `sp`/`pc`). -/
theorem storeSeq_nomatch (ns : List (List Char)) (hlen : ns.length ≤ 29)
    (hfreshAll : ∀ s ∈ ns, freshName s)
    (m : List Char) (hmne : m ≠ [])
    (hmsp : caseEq (str "sp") m = false) (hmpc : caseEq (str "pc") m = false)
    (hdistm : ∀ s ∈ ns, caseEq s m = false) :
    ∀ j, 1 ≤ j → j < 32 →
      caseEq ((storeSeq initVariables 1 ns).getD j []) m = false := by
  intro j h1 h2
  rcases (by omega : j < ns.length + 1 ∨ (ns.length + 1 ≤ j ∧ j < 30) ∨ j = 30 ∨ j = 31)
    with h | ⟨ha, hb⟩ | h | h
  · rw [storeSeq_getD_mid ns initVariables 1 j h1 (by omega)
      (by rw [initVariables_length]; omega)]
    have hjlt : j - 1 < ns.length := by omega
    have hmemD : ns.getD (j - 1) [] ∈ ns := by
      rw [List.getD_eq_getElem?_getD, List.getElem?_eq_getElem hjlt]
      exact List.getElem_mem hjlt
    rw [List.take_of_length_le (hfreshAll _ hmemD).2.2.2.2]
    exact hdistm _ hmemD
  · rw [storeSeq_getD_high ns initVariables 1 j (by omega), initVars_getD_lt30 j hb]
    exact caseEq_nil_of_ne_nil hmne
  · subst h
    rw [storeSeq_getD_high ns initVariables 1 30 (by omega), initVars_getD_30]
    exact hmsp
  · subst h
    rw [storeSeq_getD_high ns initVariables 1 31 (by omega), initVars_getD_31]
    exact hmpc

/-- The stored slots of the table are nonempty. -/
theorem storeSeq_slot_nonempty (ns : List (List Char)) (hlen : ns.length ≤ 29)
    (hfreshAll : ∀ s ∈ ns, freshName s) :
    ∀ j, 1 ≤ j → j < ns.length + 1 →
      ((storeSeq initVariables 1 ns).getD j []).isEmpty = false := by
  intro j h1 h2
  rw [storeSeq_getD_mid ns initVariables 1 j h1 (by omega)
    (by rw [initVariables_length]; omega)]
  have hjlt : j - 1 < ns.length := by omega
  have hmemD : ns.getD (j - 1) [] ∈ ns := by
    rw [List.getD_eq_getElem?_getD, List.getElem?_eq_getElem hjlt]
    exact List.getElem_mem hjlt
  rw [List.take_of_length_le (hfreshAll _ hmemD).2.2.2.2]
  cases hd : ns.getD (j - 1) [] with
  | nil => exact absurd hd (hfreshAll _ hmemD).1
  | cons c cs => rfl

/-- **C7** With 29 fresh, pairwise case-distinct symbolic names: allocating
them in order binds slots 1–29 (each allocation taking the lowest free
slot); a 30th distinct fresh name fails with the too-many-variables error;
`#free`'s search finds the slot of any of the 29 names; and after clearing
that slot, allocating a new distinct name reuses exactly the freed slot. -/
theorem c7_variable_pool (ns : List (List Char)) (hlen : ns.length = 29)
    (hfresh : ∀ s ∈ ns, freshName s ∧ caseEq (str "sp") s = false ∧
      caseEq (str "pc") s = false)
    (hdist : ns.Pairwise (fun a b => caseEq a b = false)) :
    allocSeq initVariables ns = some (List.range' 1 29, storeSeq initVariables 1 ns) ∧
    (∀ m, freshName m → caseEq (str "sp") m = false → caseEq (str "pc") m = false →
      (∀ s ∈ ns, caseEq s m = false) →
      Asm.getRegister m true (storeSeq initVariables 1 ns)
        = .error (.tooManyVariables m)) ∧
    (∀ j, j < 29 →
      Asm.freeScan (storeSeq initVariables 1 ns) (ns.getD j []) = some (j + 1)) ∧
    (∀ j, j < 29 → ∀ m, freshName m → caseEq (str "sp") m = false →
      caseEq (str "pc") m = false → (∀ s ∈ ns, caseEq s m = false) →
      Asm.getRegister m true ((storeSeq initVariables 1 ns).set (j + 1) [])
        = .ok (j + 1, ((storeSeq initVariables 1 ns).set (j + 1) []).set (j + 1)
            (m.take 254))) := by
  have hfreshAll : ∀ s ∈ ns, freshName s := fun s hs => (hfresh s hs).1
  have hTlen : (storeSeq initVariables 1 ns).length = 32 := by
    rw [storeSeq_length, initVariables_length]
  refine ⟨?_, ?_, ?_, ?_⟩
  · have := allocSeq_spec ns [] (by simpa using hlen.le) (by simpa using hfresh)
      (by simpa using hdist)
    simpa [storeSeq, hlen] using this
  · intro m hmfresh hmsp hmpc hdistm
    have hnone : firstEmptyFrom (storeSeq initVariables 1 ns) 1 = none := by
      refine firstEmptyFrom_none_spec _ 31 1 rfl ?_
      intro j h1 h2
      rcases (by omega : j < 30 ∨ j = 30 ∨ j = 31) with h | h | h
      · exact storeSeq_slot_nonempty ns hlen.le hfreshAll j h1 (by omega)
      · subst h
        rw [storeSeq_getD_high ns initVariables 1 30 (by omega), initVars_getD_30]
        rfl
      · subst h
        rw [storeSeq_getD_high ns initVariables 1 31 (by omega), initVars_getD_31]
        rfl
    exact (getRegister_fresh _ m hmfresh
      (storeSeq_nomatch ns hlen.le hfreshAll m hmfresh.1 hmsp hmpc hdistm)).2 hnone
  · intro j hj
    have hjlt : j < ns.length := by omega
    have hstored : (storeSeq initVariables 1 ns).getD (j + 1) [] = ns.getD j [] := by
      rw [storeSeq_getD_mid ns initVariables 1 (j + 1) (by omega) (by omega)
        (by rw [initVariables_length]; omega), Nat.add_sub_cancel]
      have hmemD : ns.getD j [] ∈ ns := by
        rw [List.getD_eq_getElem?_getD, List.getElem?_eq_getElem hjlt]
        exact List.getElem_mem hjlt
      exact List.take_of_length_le (hfreshAll _ hmemD).2.2.2.2
    rw [Asm.freeScan_eq_freeLoop]
    refine Asm.freeLoop_found _ _ (j + 1) (by omega) hstored 29 1 rfl (by omega) ?_
    intro j2 h1 h2
    have hj2 : j2 - 1 < ns.length := by omega
    rw [storeSeq_getD_mid ns initVariables 1 j2 h1 (by omega)
      (by rw [initVariables_length]; omega)]
    have hmem2 : ns.getD (j2 - 1) [] ∈ ns := by
      rw [List.getD_eq_getElem?_getD, List.getElem?_eq_getElem hj2]
      exact List.getElem_mem hj2
    rw [List.take_of_length_le (hfreshAll _ hmem2).2.2.2.2]
    have hpair := List.pairwise_iff_getElem.mp hdist (j2 - 1) j hj2 hjlt (by omega)
    have hne := ne_of_caseEq_false hpair
    rw [List.getD_eq_getElem?_getD, List.getElem?_eq_getElem hj2,
      List.getD_eq_getElem?_getD, List.getElem?_eq_getElem hjlt]
    simpa using hne
  · intro j hj m hmfresh hmsp hmpc hdistm
    have hnomatch2 : ∀ j2, 1 ≤ j2 → j2 < 32 →
        caseEq (((storeSeq initVariables 1 ns).set (j + 1) []).getD j2 []) m = false := by
      intro j2 h1 h2
      by_cases hcase : j2 = j + 1
      · subst hcase
        rw [getD_set_self (by omega)]
        exact caseEq_nil_of_ne_nil hmfresh.1
      · rw [getD_set_ne (fun hcc => hcase hcc.symm)]
        exact storeSeq_nomatch ns hlen.le hfreshAll m hmfresh.1 hmsp hmpc hdistm j2 h1 h2
    have hEmpty2 : firstEmptyFrom ((storeSeq initVariables 1 ns).set (j + 1) []) 1
        = some (j + 1) := by
      refine firstEmptyFrom_some_spec _ (j + 1) (by omega) ?_ j 1 (by omega) (by omega) ?_
      · rw [getD_set_self (by omega)]
        rfl
      · intro j2 h1 h2
        rw [getD_set_ne (by omega)]
        exact storeSeq_slot_nonempty ns hlen.le hfreshAll j2 h1 (by omega)
    exact (getRegister_fresh _ m hmfresh hnomatch2).1 _ hEmpty2

end Battel

namespace Battel

theorem c7_variable_pool_witness :
    allocSeq initVariables [str "a1", str "a2", str "a3", str "a4", str "a5", str "a6", str "a7", str "a8", str "a9", str "b1", str "b2", str "b3", str "b4", str "b5", str "b6", str "b7", str "b8", str "b9", str "c1", str "c2", str "c3", str "c4", str "c5", str "c6", str "c7", str "c8", str "c9", str "d1", str "d2"]
      = some (List.range' 1 29, storeSeq initVariables 1 [str "a1", str "a2", str "a3", str "a4", str "a5", str "a6", str "a7", str "a8", str "a9", str "b1", str "b2", str "b3", str "b4", str "b5", str "b6", str "b7", str "b8", str "b9", str "c1", str "c2", str "c3", str "c4", str "c5", str "c6", str "c7", str "c8", str "c9", str "d1", str "d2"]) ∧
    Asm.getRegister (str "zz") true (storeSeq initVariables 1 [str "a1", str "a2", str "a3", str "a4", str "a5", str "a6", str "a7", str "a8", str "a9", str "b1", str "b2", str "b3", str "b4", str "b5", str "b6", str "b7", str "b8", str "b9", str "c1", str "c2", str "c3", str "c4", str "c5", str "c6", str "c7", str "c8", str "c9", str "d1", str "d2"])
      = .error (.tooManyVariables (str "zz")) ∧
    Asm.freeScan (storeSeq initVariables 1 [str "a1", str "a2", str "a3", str "a4", str "a5", str "a6", str "a7", str "a8", str "a9", str "b1", str "b2", str "b3", str "b4", str "b5", str "b6", str "b7", str "b8", str "b9", str "c1", str "c2", str "c3", str "c4", str "c5", str "c6", str "c7", str "c8", str "c9", str "d1", str "d2"])
        (([str "a1", str "a2", str "a3", str "a4", str "a5", str "a6", str "a7", str "a8", str "a9", str "b1", str "b2", str "b3", str "b4", str "b5", str "b6", str "b7", str "b8", str "b9", str "c1", str "c2", str "c3", str "c4", str "c5", str "c6", str "c7", str "c8", str "c9", str "d1", str "d2"] : List (List Char)).getD 4 []) = some 5 ∧
    Asm.getRegister (str "zz") true
        ((storeSeq initVariables 1 [str "a1", str "a2", str "a3", str "a4", str "a5", str "a6", str "a7", str "a8", str "a9", str "b1", str "b2", str "b3", str "b4", str "b5", str "b6", str "b7", str "b8", str "b9", str "c1", str "c2", str "c3", str "c4", str "c5", str "c6", str "c7", str "c8", str "c9", str "d1", str "d2"]).set 5 [])
      = .ok (5, ((storeSeq initVariables 1 [str "a1", str "a2", str "a3", str "a4", str "a5", str "a6", str "a7", str "a8", str "a9", str "b1", str "b2", str "b3", str "b4", str "b5", str "b6", str "b7", str "b8", str "b9", str "c1", str "c2", str "c3", str "c4", str "c5", str "c6", str "c7", str "c8", str "c9", str "d1", str "d2"]).set 5 []).set 5
          ((str "zz").take 254)) := by
  obtain ⟨h1, h2, h3, h4⟩ := c7_variable_pool [str "a1", str "a2", str "a3", str "a4", str "a5", str "a6", str "a7", str "a8", str "a9", str "b1", str "b2", str "b3", str "b4", str "b5", str "b6", str "b7", str "b8", str "b9", str "c1", str "c2", str "c3", str "c4", str "c5", str "c6", str "c7", str "c8", str "c9", str "d1", str "d2"] rfl (by decide) (by decide)
  exact ⟨h1, h2 _ (by decide) (by decide) (by decide) (by decide), h3 4 (by decide),
    h4 4 (by decide) _ (by decide) (by decide) (by decide) (by decide)⟩

end Battel

namespace Battel

/-! ### C6 -/

theorem FILLER_value : Asm.FILLER = 0xFC00 ∧ Asm.FILLER = (0x3F <<< 10 : Nat) := by decide

/-- **C6 (amended)** For a `#starts N` line: when the `size_t` image of `N`
(equal to `N` itself whenever `N ≥ 0`) is at least the current instruction
index, filler words `0b1111110000000000` are emitted until the index reaches
that target; when it is below the current index, assembly fails with the
"wants to go back" error.  A negative `N` converts to a huge unsigned value,
so it is treated as a forward target (padding), not as a backtrack error. -/
theorem c6_starts_directive (ps : Nat) (uv : Bool) (st : Asm.AState)
    (line : List Char) (N : Int)
    (hnl : line.getLast? = some '\n')
    (h0 : line.headD ' ' = '#')
    (h1 : casePrefix (str "#starts") line = true)
    (h2 : scanfAfterWord line = some N) :
    (0 ≤ N → N < 2 ^ 64 → toSize N = N.toNat) ∧
    (st.inum ≤ toSize N →
      Asm.bodyLine ps uv st line
        = .ok ({ st with inum := toSize N },
            List.replicate (toSize N - st.inum) Asm.FILLER)) ∧
    (toSize N < st.inum →
      Asm.bodyLine ps uv st line = .error (.startsBack (toSize N) st.inum)) := by
  refine ⟨?_, ?_, ?_⟩
  · intro hN hN2
    rw [toSize, Int.emod_eq_of_lt hN hN2]
  · intro hle
    rw [Asm.bodyLine, if_pos hnl, if_pos h0, if_pos h1]
    simp only [h2]
    rw [if_neg (by omega)]
  · intro hlt
    rw [Asm.bodyLine, if_pos hnl, if_pos h0, if_pos h1]
    simp only [h2]
    rw [if_pos hlt]

theorem c6_starts_directive_witness :
    Asm.bodyLine 0 true Asm.initState (str "#starts 3\n")
      = .ok ({ Asm.initState with inum := toSize 3 },
          List.replicate (toSize 3 - Asm.initState.inum) Asm.FILLER) :=
  (c6_starts_directive 0 true Asm.initState (str "#starts 3\n") 3 rfl rfl (by decide)
    (by decide)).2.1 (by decide)

/-- `#starts -1` at instruction index 0: the parameter is below the current
index, yet the directive does not fail — the signed/unsigned comparison
treats `-1` as `2^64 - 1` and pads forward. -/
theorem c6_starts_negative_counterexample :
    ((-1 : Int) < (Asm.initState.inum : Int)) ∧
    scanfAfterWord (str "#starts -1\n") = some (-1) ∧
    (Asm.bodyLine 0 true Asm.initState (str "#starts -1\n")).isOk = true :=
  ⟨by decide, rfl, rfl⟩

end Battel

namespace Battel

/-! ### Tokenisation of clean operand lines -/

theorem tokenizeGo_append_clean (t : List Char) :
    ∀ (rest cur : List Char), (∀ c ∈ t, isDelim c = false) →
      tokenizeGo (t ++ rest) cur = tokenizeGo rest (cur ++ t) := by
  induction t with
  | nil =>
    intro rest cur _
    simp
  | cons c t ih =>
    intro rest cur h
    have hc : isDelim c = false := h c (by simp)
    rw [List.cons_append, tokenizeGo, if_neg (by simp [hc])]
    rw [ih _ _ (fun d hd => h d (by simp [hd]))]
    rw [List.append_assoc]
    rfl

theorem tokenizeGo_delim_cons {d : Char} (hd : isDelim d = true) (rest cur : List Char) :
    tokenizeGo (d :: rest) cur
      = if cur.isEmpty then tokenizeGo rest [] else cur :: tokenizeGo rest [] := by
  rw [tokenizeGo, if_pos hd]

/-- Tokenisation of a one-operand line `LDI <t>`. -/
theorem tokenize_ldi_line (t : List Char) (h : ∀ c ∈ t, isDelim c = false)
    (hne : t ≠ []) :
    tokenize (str "LDI " ++ t ++ str "\n") = [str "LDI", t] := by
  have hshape : str "LDI " ++ t ++ str "\n"
      = ['L', 'D', 'I'] ++ (' ' :: (t ++ ['\n'])) := by
    simp [str]
  rw [tokenize, hshape, tokenizeGo_append_clean _ _ _ (by decide),
    tokenizeGo_delim_cons (by decide), if_neg (by decide),
    tokenizeGo_append_clean _ _ _ h, tokenizeGo_delim_cons (by decide),
    if_neg (by simpa using hne)]
  rfl

/-- Tokenisation of a two-operand line `MV <d>, <s>`. -/
theorem tokenize_mv_line (d s : List Char)
    (hd : ∀ c ∈ d, isDelim c = false) (hdne : d ≠ [])
    (hs : ∀ c ∈ s, isDelim c = false) (hsne : s ≠ []) :
    tokenize (str "MV " ++ d ++ str ", " ++ s ++ str "\n") = [str "MV", d, s] := by
  have hshape : str "MV " ++ d ++ str ", " ++ s ++ str "\n"
      = ['M', 'V'] ++ (' ' :: (d ++ (',' :: (' ' :: (s ++ ['\n']))))) := by
    simp [str]
  rw [tokenize, hshape, tokenizeGo_append_clean _ _ _ (by decide),
    tokenizeGo_delim_cons (by decide), if_neg (by decide),
    tokenizeGo_append_clean _ _ _ hd, tokenizeGo_delim_cons (by decide),
    if_neg (by simpa using hdne), tokenizeGo_delim_cons (by decide),
    if_pos (show ([] : List Char).isEmpty = true from rfl),
    tokenizeGo_append_clean _ _ _ hs, tokenizeGo_delim_cons (by decide),
    if_neg (by simpa using hsne)]
  rfl

end Battel

namespace Battel

/-! ### C4 -/

/-- **C4** For a token `t` whose numeric resolution (by `parseNum`, falling
back to `parseConst`) yields the stored `int` value `v`: encoding `LDI t`
produces the word numerically equal to `v` when `0 ≤ v < 2^16` (LDI's opcode
value 0 contributes nothing), and fails with the value-out-of-range error
otherwise. -/
theorem c4_ldi_value (t : List Char) (ps inum : Nat) (vars : VarTable) (uv : Bool)
    (v : Int) (ht : cleanTok t) (hv : numOperand t ps inum = .ok v) :
    (0 ≤ v → v < 65536 →
      Asm.compileLine (str "LDI " ++ t ++ str "\n") ps inum vars uv
        = .ok (some v.toNat, vars)) ∧
    ((v < 0 ∨ 65536 ≤ v) →
      Asm.compileLine (str "LDI " ++ t ++ str "\n") ps inum vars uv
        = .error (.numNotInRange16 t)) := by
  obtain ⟨hne, hsemi, hclean⟩ := ht
  have htok := tokenize_ldi_line t hclean hne
  constructor
  · intro h0 h1
    rw [Asm.compileLine]
    simp only [htok, show getOperation (str "LDI") = some OP_LDI from rfl]
    rw [if_neg (show ¬((str "LDI").headD ' ' = ';') from by decide)]
    rw [Asm.operLoop]
    rw [if_neg hsemi]
    rw [if_neg (by decide), if_neg (by decide), if_neg (by decide), if_neg (by decide),
      if_pos (show OP_LDI = OP_LDI from rfl)]
    simp only [hv]
    rw [if_neg (by simp only [Bool.or_eq_true, decide_eq_true_eq]; omega)]
    rw [Asm.operLoop]
    have hval : fintAssign (fintAssign ((OP_LDI &&& 0x3F) <<< 10) ||| (v % 65536).toNat)
        = v.toNat := by
      rw [show fintAssign ((OP_LDI &&& 0x3F) <<< 10) = 0 from rfl, Nat.zero_or, fintAssign]
      omega
    simp only [hval]
    simp
    decide
  · intro hout
    rw [Asm.compileLine]
    simp only [htok, show getOperation (str "LDI") = some OP_LDI from rfl]
    rw [if_neg (show ¬((str "LDI").headD ' ' = ';') from by decide)]
    rw [Asm.operLoop]
    rw [if_neg hsemi]
    rw [if_neg (by decide), if_neg (by decide), if_neg (by decide), if_neg (by decide),
      if_pos (show OP_LDI = OP_LDI from rfl)]
    simp only [hv]
    rw [if_pos (by simp only [Bool.or_eq_true, decide_eq_true_eq]; omega)]

end Battel

namespace Battel

theorem c4_ldi_value_witness :
    Asm.compileLine (str "LDI " ++ str "1000" ++ str "\n") 9 0 initVariables true
      = .ok (some ((1000 : Int)).toNat, initVariables) :=
  (c4_ldi_value (str "1000") 9 0 initVariables true 1000 (by decide) rfl).1
    (by decide) (by decide)

/-! ### C2 -/

/-- Decoding the `MV` word recovers the opcode and both slots. -/
theorem mvWord_decode (r1 r2 : Nat) (h1 : r1 < 32) (h2 : r2 < 32) :
    mvWord r1 r2 / 2 ^ 10 = OP_MV ∧ mvWord r1 r2 / 2 ^ 5 % 2 ^ 5 = r1 ∧
      mvWord r1 r2 % 2 ^ 5 = r2 := by
  have hdec : ∀ a b : Fin 32, mvWord a.val b.val / 2 ^ 10 = OP_MV ∧
      mvWord a.val b.val / 2 ^ 5 % 2 ^ 5 = a.val ∧ mvWord a.val b.val % 2 ^ 5 = b.val := by
    decide
  exact hdec ⟨r1, h1⟩ ⟨r2, h2⟩

/-- **C2** For register operand tokens accepted by assembler.c's resolver
(yielding slots `r1`, `r2`), encoding `MV dst, src` produces the word
`mvWord r1 r2`, whose bits 15–10 decode to the MV opcode, bits 9–5 to `r1`
and bits 4–0 to `r2`. -/
theorem c2_mv_round_trip (dst src : List Char) (ps inum : Nat)
    (vars v1 v2 : VarTable) (r1 r2 : Nat) (uv : Bool)
    (hd : cleanTok dst) (hs : cleanTok src)
    (h1 : Asm.getRegister dst uv vars = .ok (r1, v1))
    (h2 : Asm.getRegister src uv v1 = .ok (r2, v2)) :
    Asm.compileLine (str "MV " ++ dst ++ str ", " ++ src ++ str "\n") ps inum vars uv
      = .ok (some (mvWord r1 r2), v2) ∧
    mvWord r1 r2 / 2 ^ 10 = OP_MV ∧ mvWord r1 r2 / 2 ^ 5 % 2 ^ 5 = r1 ∧
    mvWord r1 r2 % 2 ^ 5 = r2 := by
  obtain ⟨hdne, hdsemi, hdclean⟩ := hd
  obtain ⟨hsne, hssemi, hsclean⟩ := hs
  have htok := tokenize_mv_line dst src hdclean hdne hsclean hsne
  refine ⟨?_, mvWord_decode r1 r2 (Asm.getRegister_lt h1) (Asm.getRegister_lt h2)⟩
  rw [Asm.compileLine]
  simp only [htok, show getOperation (str "MV") = some OP_MV from rfl]
  rw [if_neg (show ¬((str "MV").headD ' ' = ';') from by decide)]
  rw [Asm.operLoop]
  rw [if_neg hdsemi]
  rw [if_neg (by decide), if_neg (by decide), if_neg (by decide), if_neg (by decide),
    if_neg (by decide), if_neg (by decide)]
  simp only [h1]
  rw [Asm.operLoop]
  rw [if_neg hssemi]
  rw [if_neg (by decide), if_neg (by decide), if_neg (by decide), if_neg (by decide),
    if_neg (by decide), if_neg (by decide)]
  simp only [h2]
  rw [Asm.operLoop]
  simp
  rw [if_neg (by decide), if_neg (by decide)]
  rfl

end Battel

namespace Battel

theorem c2_mv_round_trip_witness :
    Asm.compileLine (str "MV " ++ str "r3" ++ str ", " ++ str "cnt" ++ str "\n") 5 0
        initVariables true
      = .ok (some (mvWord 3 1), initVariables.set 1 (str "cnt")) ∧
    mvWord 3 1 / 2 ^ 10 = OP_MV ∧ mvWord 3 1 / 2 ^ 5 % 2 ^ 5 = 3 ∧
    mvWord 3 1 % 2 ^ 5 = 1 :=
  c2_mv_round_trip (str "r3") (str "cnt") 5 0 initVariables initVariables
    (initVariables.set 1 (str "cnt")) 3 1 true (by decide) (by decide) rfl rfl

end Battel

namespace Battel

/-! ### C5 -/

theorem writeSeq_eq (ws : List Nat) :
    ∀ (arr : List Nat) (i : Nat), i + ws.length ≤ arr.length →
      writeSeq arr i ws = arr.take i ++ ws ++ arr.drop (i + ws.length) := by
  induction ws with
  | nil =>
    intro arr i h
    simp [writeSeq]
  | cons w ws ih =>
    intro arr i h
    simp only [List.length_cons] at h
    have hi : i < arr.length := by omega
    have hset : arr.set i w = arr.take i ++ w :: arr.drop (i + 1) := by
      rw [List.set_eq_take_append_cons_drop, if_pos hi]
    rw [writeSeq, ih _ _ (by rw [List.length_set]; omega), hset]
    have hlen : (arr.take i).length = i := by
      rw [List.length_take]
      omega
    have htake : (arr.take i ++ w :: arr.drop (i + 1)).take (i + 1)
        = arr.take i ++ [w] := by
      rw [show i + 1 = (arr.take i).length + 1 by rw [hlen]]
      rw [List.take_append]
      rfl
    have hdrop : (arr.take i ++ w :: arr.drop (i + 1)).drop (i + 1 + ws.length)
        = arr.drop (i + (ws.length + 1)) := by
      rw [show i + 1 + ws.length = (arr.take i).length + (1 + ws.length) by rw [hlen]; omega]
      rw [List.drop_append]
      rw [show 1 + ws.length = ws.length + 1 by omega]
      rw [List.drop_succ_cons, List.drop_drop]
      congr 1
      omega
    rw [htake, hdrop]
    simp [List.append_assoc]

theorem writeSeq_length (ws : List Nat) :
    ∀ (arr : List Nat) (i : Nat), (writeSeq arr i ws).length = arr.length := by
  induction ws with
  | nil => intro arr i; rfl
  | cons w ws ih =>
    intro arr i
    rw [writeSeq, ih, List.length_set]

theorem writeSeq_take_zero {arr ws : List Nat} (h : ws.length ≤ arr.length) :
    (writeSeq arr 0 ws).take ws.length = ws := by
  rw [writeSeq_eq ws arr 0 (by omega)]
  simp only [List.take_zero, List.nil_append, Nat.zero_add]
  rw [show ws.length = ws.length + 0 from rfl, List.take_append]
  simp

theorem replayWords_length (rounds : Nat) (block : List Nat) :
    (Asm.replayWords rounds block).length = rounds * block.length := by
  rw [replayWords_eq_flatten, List.length_flatten, List.map_replicate, List.sum_replicate,
    smul_eq_mul]

end Battel

namespace Battel

/-- A captured instruction word strictly before the quota: the word is stored
and the counter advances, with no replay. -/
theorem repeatStep_mid (st : Asm.AState) (w : Nat) (m : Nat)
    (hwhat : st.repeatWhat = (m : Int))
    (hm : st.repeatAlready + 2 ≤ m) (hle : m ≤ 1024) :
    Asm.repeatStep st w = .ok ({ st with
      repeatArr := st.repeatArr.set st.repeatAlready w,
      repeatAlready := st.repeatAlready + 1 }, []) := by
  obtain ⟨si, sv, sw, stt, sa, sarr⟩ := st
  simp only at hwhat hm
  have hc2 : sw ≠ (sa : Int) := by rw [hwhat]; simp only [ne_eq, Nat.cast_inj]; omega
  simp only [Asm.repeatStep]
  rw [if_neg (by simp only [Bool.and_eq_true, decide_eq_true_eq, not_and]; intro _; omega)]
  rw [if_pos hc2]
  rw [if_neg (show ¬(sw = ((sa + 1 : Nat) : Int)) by
    rw [hwhat]; simp only [ne_eq, Nat.cast_inj]; omega)]

end Battel

namespace Battel
/-- The word that completes the quota: it is stored, and the whole captured
block is replayed `repeatTimes` more times while the capture state resets. -/
theorem repeatStep_last (st : Asm.AState) (w : Nat) (m : Nat)
    (hwhat : st.repeatWhat = (m : Int))
    (hm : m = st.repeatAlready + 1) (hle : m ≤ 1024)
    (ht : 0 ≤ st.repeatTimes) :
    Asm.repeatStep st w = .ok ({ st with
      inum := (st.inum + st.repeatTimes.toNat * m) % 2 ^ 64,
      repeatWhat := 0, repeatAlready := 0, repeatTimes := -1,
      repeatArr := st.repeatArr.set st.repeatAlready w },
      Asm.replayWords st.repeatTimes.toNat
        ((st.repeatArr.set st.repeatAlready w).take m)) := by
  obtain ⟨si, sv, sw, stt, sa, sarr⟩ := st
  simp only at hwhat hm hle ht ⊢
  subst hm
  have hc2 : sw ≠ (sa : Int) := by rw [hwhat]; simp only [ne_eq, Nat.cast_inj]; omega
  simp only [Asm.repeatStep]
  rw [if_neg (by simp only [Bool.and_eq_true, decide_eq_true_eq, not_and]; intro _; omega)]
  rw [if_pos hc2]
  rw [if_pos hwhat]
  rw [show Asm.replayRounds stt = stt.toNat from by unfold Asm.replayRounds; rw [if_pos ht]]
  rw [hwhat]
  simp only [Int.toNat_natCast]

end Battel

namespace Battel

/-- `compileSeq` produces exactly one word per input line. -/
theorem compileSeq_length (ps : Nat) (uv : Bool) (ls : List (List Char)) :
    ∀ (inum : Nat) (vars : VarTable) (ws : List Nat) (vf : VarTable),
      compileSeq ps uv inum vars ls = some (ws, vf) → ws.length = ls.length := by
  induction ls with
  | nil =>
    intro inum vars ws vf h
    simp only [compileSeq, Option.some.injEq, Prod.mk.injEq] at h
    rw [← h.1]
    rfl
  | cons l ls ih =>
    intro inum vars ws vf h
    simp only [compileSeq] at h
    cases hcl : Asm.compileLine l ps inum vars uv with
    | error e => simp only [hcl] at h; exact Option.noConfusion h
    | ok p =>
      obtain ⟨w?, v'⟩ := p
      cases w? with
      | none => simp only [hcl] at h; exact Option.noConfusion h
      | some w =>
        simp only [hcl] at h
        cases hcs : compileSeq ps uv ((inum + 1) % 2 ^ 64) v' ls with
        | none => simp only [hcs] at h; exact Option.noConfusion h
        | some q =>
          obtain ⟨ws', vf'⟩ := q
          simp only [hcs, Option.some.injEq, Prod.mk.injEq] at h
          rw [← h.1, List.length_cons, ih _ _ _ _ hcs]
          rfl

end Battel

namespace Battel

/-- `bodyLine` on a non-directive line that already ends in a newline:
only the encode-and-bookkeep branch remains. -/
theorem bodyLine_plain (ps : Nat) (uv : Bool) (st : Asm.AState) (l : List Char)
    (hhead : l.headD ' ' ≠ '#') (hnl : l.getLast? = some '\n') :
    Asm.bodyLine ps uv st l =
      match Asm.compileLine l ps st.inum st.vars uv with
      | .error e => .error e
      | .ok (none, v') => .ok ({ st with vars := v' }, [])
      | .ok (some w, v') =>
        match Asm.repeatStep { st with vars := v', inum := (st.inum + 1) % 2 ^ 64 } w with
        | .error e => .error e
        | .ok (st', replay) => .ok (st', w :: replay) := by
  simp only [Asm.bodyLine]
  rw [if_pos hnl, if_neg hhead]

end Battel

namespace Battel

/-- One unfolding of the emission loop on a cons cell. -/
theorem bodyLoop_cons (ps : Nat) (uv : Bool) (st : Asm.AState) (l : List Char)
    (ls : List (List Char)) :
    Asm.bodyLoop ps uv st (l :: ls) =
      match Asm.bodyLine ps uv st l with
      | .error e => .error e
      | .ok (st', ws) =>
        match Asm.bodyLoop ps uv st' ls with
        | .error e => .error e
        | .ok (st'', ws') => .ok (st'', ws ++ ws') := rfl

/-- Running the emission loop over the instruction lines of an active
`#repeat` capture whose quota matches the number of lines: each word is
stored into the repeat array, and the word filling the quota replays the
captured block `repeatTimes` more times and resets the capture state. -/
theorem repeat_capture_loop (ps : Nat) (uv : Bool) (ls : List (List Char)) :
    ∀ (si : Nat) (sv : VarTable) (stt : Int) (sa : Nat) (sarr : List Nat)
      (ws : List Nat) (vf : VarTable),
      sa + ls.length ≤ 1024 →
      0 ≤ stt →
      1 ≤ ls.length →
      compileSeq ps uv si sv ls = some (ws, vf) →
      (∀ l ∈ ls, l.headD ' ' ≠ '#' ∧ l.getLast? = some '\n') →
      Asm.bodyLoop ps uv ⟨si, sv, ((sa + ls.length : Nat) : Int), stt, sa, sarr⟩ ls =
        .ok (⟨(si + ls.length + stt.toNat * (sa + ls.length)) % 2 ^ 64, vf,
              0, -1, 0, writeSeq sarr sa ws⟩,
          ws ++ Asm.replayWords stt.toNat
            ((writeSeq sarr sa ws).take (sa + ls.length))) := by
  induction ls with
  | nil => intro si sv stt sa sarr ws vf hle hstt hlen hseq hlines; simp at hlen
  | cons l ls ih =>
    intro si sv stt sa sarr ws vf hle hstt hlen hseq hlines
    obtain ⟨hhead, hnl⟩ := hlines l (List.mem_cons_self l ls)
    have hlines' : ∀ x ∈ ls, x.headD ' ' ≠ '#' ∧ x.getLast? = some '\n' :=
      fun x hx => hlines x (List.mem_cons_of_mem l hx)
    simp only [compileSeq] at hseq
    cases hcl : Asm.compileLine l ps si sv uv with
    | error e => simp only [hcl] at hseq; exact Option.noConfusion hseq
    | ok p =>
      obtain ⟨w?, v'⟩ := p
      cases w? with
      | none => simp only [hcl] at hseq; exact Option.noConfusion hseq
      | some w =>
        simp only [hcl] at hseq
        cases hcs : compileSeq ps uv ((si + 1) % 2 ^ 64) v' ls with
        | none => simp only [hcs] at hseq; exact Option.noConfusion hseq
        | some q =>
          obtain ⟨ws', vf'⟩ := q
          simp only [hcs, Option.some.injEq, Prod.mk.injEq] at hseq
          obtain ⟨hws, hvf⟩ := hseq
          subst hvf
          subst hws
          rcases ls with _ | ⟨l2, ls2⟩
          · -- single captured line: the quota is filled and the replay fires
            simp only [compileSeq, Option.some.injEq, Prod.mk.injEq] at hcs
            obtain ⟨hws', hvf'⟩ := hcs
            subst hvf'
            subst hws'
            simp only [List.length_cons, List.length_nil, Nat.zero_add] at hle ⊢
            simp only [Asm.bodyLoop]
            rw [bodyLine_plain ps uv ⟨si, sv, ((sa + 1 : Nat) : Int), stt, sa, sarr⟩ l
              hhead hnl]
            simp only [hcl]
            rw [repeatStep_last ⟨(si + 1) % 2 ^ 64, v', ((sa + 1 : Nat) : Int), stt, sa, sarr⟩
              w (sa + 1) rfl rfl (by omega) hstt]
            simp only [writeSeq, List.singleton_append,
              Except.ok.injEq, Prod.mk.injEq, Asm.AState.mk.injEq, and_true, true_and]
            constructor
            · generalize stt.toNat * (sa + 1) = R
              omega
            · rw [List.append_nil]
          · -- strictly inside the quota: the word is stored and the loop continues
            simp only [List.length_cons] at hle ⊢
            rw [show sa + (ls2.length + 1 + 1) = (sa + 1) + (ls2.length + 1) from by omega]
            rw [bodyLoop_cons]
            rw [bodyLine_plain ps uv
              ⟨si, sv, (((sa + 1) + (ls2.length + 1) : Nat) : Int), stt, sa, sarr⟩ l
              hhead hnl]
            simp only [hcl]
            rw [repeatStep_mid
              ⟨(si + 1) % 2 ^ 64, v', (((sa + 1) + (ls2.length + 1) : Nat) : Int), stt, sa, sarr⟩
              w ((sa + 1) + (ls2.length + 1))
              rfl (by show sa + 2 ≤ (sa + 1) + (ls2.length + 1); omega) (by omega)]
            have hIH := ih ((si + 1) % 2 ^ 64) v' stt (sa + 1) (sarr.set sa w) ws' vf'
              (by simp only [List.length_cons]; omega) hstt
              (by simp only [List.length_cons]; omega) hcs hlines'
            simp only [List.length_cons] at hIH
            simp only [hIH]
            simp only [writeSeq, List.cons_append,
              Except.ok.injEq, Prod.mk.injEq, Asm.AState.mk.injEq, and_true, true_and]
            constructor
            · generalize stt.toNat * ((sa + 1) + (ls2.length + 1)) = R
              omega
            · rfl

end Battel

namespace Battel

/-- C5: a `#repeat K T` directive (with `1 ≤ T` and `K ≤ 1024`, the repeat
buffer's capacity) followed by `K` successfully encoded instruction lines
emits exactly `K·T` words for the block — the `K` captured words followed by
`K·(T−1)` replayed words identical to the originals — and advances the
instruction index by `K·T`; and a `#repeat` line reached while a capture is
still active (`repeat_what ≠ 0`) is the nested-repeat fatal error. -/
theorem c5_repeat_block (ps : Nat) (uv : Bool) (dirLine : List Char)
    (K T : Int) (ls : List (List Char)) (st : Asm.AState)
    (ws : List Nat) (vf : VarTable)
    (hnl : dirLine.getLast? = some '\n')
    (hh : dirLine.headD ' ' = '#')
    (hns : casePrefix (str "#starts") dirLine = false)
    (hnf : casePrefix (str "#free") dirLine = false)
    (hrep : casePrefix (str "#repeat") dirLine = true)
    (hscan : scanfAfterWord2 dirLine = some (K, T))
    (hK : K = (ls.length : Int))
    (hT : 1 ≤ T)
    (hlen1 : 1 ≤ ls.length) (hlen2 : ls.length ≤ 1024)
    (hwhat0 : st.repeatWhat = 0)
    (harr : st.repeatArr.length = 1024)
    (hseq : compileSeq ps uv st.inum st.vars ls = some (ws, vf))
    (hlines : ∀ l ∈ ls, l.headD ' ' ≠ '#' ∧ l.getLast? = some '\n') :
    (∃ stf, Asm.bodyLoop ps uv st (dirLine :: ls) =
        .ok (stf, ws ++ (List.replicate (T - 1).toNat ws).flatten) ∧
      stf.inum = (st.inum + T.toNat * ls.length) % 2 ^ 64) ∧
    ws.length = ls.length ∧
    (ws ++ (List.replicate (T - 1).toNat ws).flatten).length = T.toNat * ls.length ∧
    (∀ st2 : Asm.AState, st2.repeatWhat ≠ 0 →
      Asm.bodyLine ps uv st2 dirLine = .error .nestedRepeat) := by
  subst hK
  obtain ⟨si, sv, sw, stt, sa, sarr⟩ := st
  simp only at hwhat0 harr hseq ⊢
  subst hwhat0
  have hws_len := compileSeq_length ps uv ls si sv ws vf hseq
  have hnest : ∀ st2 : Asm.AState, st2.repeatWhat ≠ 0 →
      Asm.bodyLine ps uv st2 dirLine = .error .nestedRepeat := by
    intro st2 h2
    simp only [Asm.bodyLine]
    rw [if_pos hnl, if_pos hh]
    rw [if_neg (show ¬(casePrefix (str "#starts") dirLine = true) by simp [hns])]
    rw [if_neg (show ¬(casePrefix (str "#free") dirLine = true) by simp [hnf])]
    rw [if_pos (show casePrefix (str "#repeat") dirLine = true from hrep)]
    simp only [hscan]
    rw [if_pos h2]
  have hdir : Asm.bodyLine ps uv ⟨si, sv, 0, stt, sa, sarr⟩ dirLine =
      .ok (⟨si, sv, (ls.length : Int), T - 1, 0, sarr⟩, []) := by
    simp only [Asm.bodyLine]
    rw [if_pos hnl, if_pos hh]
    rw [if_neg (show ¬(casePrefix (str "#starts") dirLine = true) by simp [hns])]
    rw [if_neg (show ¬(casePrefix (str "#free") dirLine = true) by simp [hnf])]
    rw [if_pos (show casePrefix (str "#repeat") dirLine = true from hrep)]
    simp only [hscan]
    rw [if_neg (show ¬((0 : Int) ≠ 0) by simp)]
  have hloop := repeat_capture_loop ps uv ls si sv (T - 1) 0 sarr ws vf
    (by omega) (by omega) hlen1 hseq hlines
  rw [Nat.zero_add] at hloop
  have hblock : (writeSeq sarr 0 ws).take ls.length = ws := by
    rw [← hws_len]
    exact writeSeq_take_zero (by omega)
  rw [hblock, replayWords_eq_flatten] at hloop
  have h1 : (T - 1).toNat + 1 = T.toNat := by omega
  refine ⟨⟨⟨(si + ls.length + (T - 1).toNat * ls.length) % 2 ^ 64, vf, 0, -1, 0,
      writeSeq sarr 0 ws⟩, ?_, ?_⟩, hws_len, ?_, hnest⟩
  · rw [bodyLoop_cons]
    simp only [hdir]
    simp only [hloop]
    simp only [List.nil_append]
  · show (si + ls.length + (T - 1).toNat * ls.length) % 2 ^ 64 =
      (si + T.toNat * ls.length) % 2 ^ 64
    rw [← h1, Nat.succ_mul]
    generalize (T - 1).toNat * ls.length = P
    omega
  · rw [List.length_append, List.length_flatten, List.map_replicate,
      List.sum_replicate, smul_eq_mul, hws_len, ← h1, Nat.succ_mul]
    generalize (T - 1).toNat * ls.length = P
    omega

end Battel

namespace Battel

set_option maxRecDepth 4096 in
/-- Witness for `c5_repeat_block`: `#repeat 2 3` over `LDI 1`, `LDI 2`
emits `[1, 2, 1, 2, 1, 2]` — six words for `K = 2`, `T = 3` — and a state
with instruction index 6; a still-active capture makes the directive the
nested-repeat error. -/
theorem c5_repeat_block_witness :
    (∃ stf, Asm.bodyLoop 6 true Asm.initState
        [str "#repeat 2 3\n", str "LDI 1\n", str "LDI 2\n"] =
        .ok (stf, [1, 2] ++ (List.replicate ((3 : Int) - 1).toNat [1, 2]).flatten) ∧
      stf.inum = (Asm.initState.inum +
        (3 : Int).toNat * [str "LDI 1\n", str "LDI 2\n"].length) % 2 ^ 64) ∧
    ([1, 2] : List Nat).length = [str "LDI 1\n", str "LDI 2\n"].length ∧
    ([1, 2] ++ (List.replicate ((3 : Int) - 1).toNat [1, 2]).flatten).length =
      (3 : Int).toNat * [str "LDI 1\n", str "LDI 2\n"].length ∧
    (∀ st2 : Asm.AState, st2.repeatWhat ≠ 0 →
      Asm.bodyLine 6 true st2 (str "#repeat 2 3\n") = .error .nestedRepeat) :=
  c5_repeat_block 6 true (str "#repeat 2 3\n") 2 3
    [str "LDI 1\n", str "LDI 2\n"] Asm.initState [1, 2] Asm.initState.vars
    (by decide) (by decide) (by decide) (by decide) (by decide) (by decide)
    (by decide) (by decide) (by decide) (by decide) rfl rfl rfl (by decide)

end Battel

namespace Battel

/-- The value stored in a `size_t` is below `2^64`. -/
theorem toSize_lt (v : Int) : toSize v < 2 ^ 64 := by
  unfold toSize
  omega

/-- The capture/replay bookkeeping advances the instruction index by exactly
the number of replayed words (as `size_t`), and preserves the bounds on the
capture counter and buffer. -/
theorem repeatStep_inum (st : Asm.AState) (w : Nat) (st' : Asm.AState)
    (replay : List Nat)
    (h1 : st.inum < 2 ^ 64) (h2 : st.repeatAlready ≤ 1024)
    (h3 : st.repeatArr.length = 1024)
    (h : Asm.repeatStep st w = .ok (st', replay)) :
    st'.inum = (st.inum + replay.length) % 2 ^ 64 ∧
    st'.inum < 2 ^ 64 ∧ st'.repeatAlready ≤ 1024 ∧
    st'.repeatArr.length = 1024 := by
  obtain ⟨si, sv, sw, stt, sa, sarr⟩ := st
  simp only at h1 h2 h3 ⊢
  simp only [Asm.repeatStep] at h
  by_cases h4 : sw = (sa : Int)
  · rw [if_neg (by simp [h4])] at h
    rw [if_neg (not_not_intro h4)] at h
    rw [if_pos h4] at h
    simp only [Except.ok.injEq, Prod.mk.injEq] at h
    obtain ⟨hst, hrep⟩ := h
    subst hst
    subst hrep
    rw [replayWords_length, List.length_take, h3, h4, Int.toNat_natCast]
    have hmin : min sa 1024 = sa := by omega
    rw [hmin]
    refine ⟨rfl, ?_, ?_, rfl⟩
    · show (si + Asm.replayRounds stt * sa) % 2 ^ 64 < 2 ^ 64
      omega
    · show (0 : Nat) ≤ 1024
      omega
  · by_cases h5 : 1024 ≤ sa
    · rw [if_pos (by simp [h4, h5])] at h
      exact absurd h (by simp)
    · rw [if_neg (by simp [h5])] at h
      rw [if_pos h4] at h
      by_cases h6 : sw = ((sa + 1 : Nat) : Int)
      · rw [if_pos h6] at h
        simp only [Except.ok.injEq, Prod.mk.injEq] at h
        obtain ⟨hst, hrep⟩ := h
        subst hst
        subst hrep
        rw [replayWords_length, List.length_take, List.length_set, h3, h6,
          Int.toNat_natCast]
        have hmin : min (sa + 1) 1024 = sa + 1 := by omega
        rw [hmin]
        refine ⟨rfl, ?_, ?_, rfl⟩
        · show (si + Asm.replayRounds stt * (sa + 1)) % 2 ^ 64 < 2 ^ 64
          omega
        · show (0 : Nat) ≤ 1024
          omega
      · rw [if_neg h6] at h
        simp only [Except.ok.injEq, Prod.mk.injEq] at h
        obtain ⟨hst, hrep⟩ := h
        subst hst
        subst hrep
        simp only [List.length_nil, Nat.add_zero]
        refine ⟨?_, ?_, ?_, ?_⟩
        · show si = si % 2 ^ 64
          omega
        · show si < 2 ^ 64
          exact h1
        · show sa + 1 ≤ 1024
          omega
        · show (sarr.set sa w).length = 1024
          rw [List.length_set, h3]

end Battel

namespace Battel

/-- Each emission-loop iteration advances the instruction index by exactly
the number of words it emits (as `size_t`), and preserves the bounds on the
capture counter and buffer. -/
theorem bodyLine_inum (ps : Nat) (uv : Bool) (st : Asm.AState) (l : List Char)
    (st' : Asm.AState) (ws : List Nat)
    (h1 : st.inum < 2 ^ 64) (h2 : st.repeatAlready ≤ 1024)
    (h3 : st.repeatArr.length = 1024)
    (h : Asm.bodyLine ps uv st l = .ok (st', ws)) :
    st'.inum = (st.inum + ws.length) % 2 ^ 64 ∧
    st'.inum < 2 ^ 64 ∧ st'.repeatAlready ≤ 1024 ∧
    st'.repeatArr.length = 1024 := by
  obtain ⟨si, sv, sw, stt, sa, sarr⟩ := st
  simp only at h1 h2 h3 ⊢
  simp only [Asm.bodyLine] at h
  revert h
  generalize (if l.getLast? = some '\n' then l else l ++ ['\n']) = line
  intro h
  split at h
  · -- directive lines
    repeat' split at h
    all_goals
      first
      | exact Except.noConfusion h
      | (simp only [Except.ok.injEq, Prod.mk.injEq] at h
         obtain ⟨hst, hws⟩ := h
         subst hst
         subst hws
         simp only [List.length_nil, List.length_replicate]
         refine ⟨?_, ?_, ?_, ?_⟩ <;> (try simp only [toSize] at *) <;> omega)
  · -- instruction lines
    split at h
    · exact Except.noConfusion h
    · simp only [Except.ok.injEq, Prod.mk.injEq] at h
      obtain ⟨hst, hws⟩ := h
      subst hst
      subst hws
      simp only [List.length_nil]
      refine ⟨?_, ?_, ?_, ?_⟩ <;> omega
    · split at h
      · exact Except.noConfusion h
      · rename_i st2 replay heq2
        simp only [Except.ok.injEq, Prod.mk.injEq] at h
        obtain ⟨hst, hws⟩ := h
        subst hst
        subst hws
        have hr := repeatStep_inum _ _ _ _
          (show (si + 1) % 2 ^ 64 < 2 ^ 64 by omega)
          (show sa ≤ 1024 from h2) (show sarr.length = 1024 from h3) heq2
        obtain ⟨ha, hb, hc, hd⟩ := hr
        simp only at ha
        refine ⟨?_, hb, hc, hd⟩
        rw [ha, List.length_cons]
        omega

end Battel

namespace Battel

/-- The emission loop advances the instruction index by exactly the number
of words it emits (as `size_t`). -/
theorem bodyLoop_inum (ps : Nat) (uv : Bool) (ls : List (List Char)) :
    ∀ (st st' : Asm.AState) (ws : List Nat),
      st.inum < 2 ^ 64 → st.repeatAlready ≤ 1024 → st.repeatArr.length = 1024 →
      Asm.bodyLoop ps uv st ls = .ok (st', ws) →
      st'.inum = (st.inum + ws.length) % 2 ^ 64 := by
  induction ls with
  | nil =>
    intro st st' ws h1 h2 h3 h
    simp only [Asm.bodyLoop, Except.ok.injEq, Prod.mk.injEq] at h
    obtain ⟨hst, hws⟩ := h
    subst hst
    subst hws
    simp only [List.length_nil]
    omega
  | cons l ls ih =>
    intro st st' ws h1 h2 h3 h
    rw [bodyLoop_cons] at h
    cases hbl : Asm.bodyLine ps uv st l with
    | error e => simp only [hbl] at h; exact Except.noConfusion h
    | ok p =>
      obtain ⟨st1, ws1⟩ := p
      simp only [hbl] at h
      cases hlp : Asm.bodyLoop ps uv st1 ls with
      | error e => simp only [hlp] at h; exact Except.noConfusion h
      | ok q =>
        obtain ⟨st2, ws2⟩ := q
        simp only [hlp, Except.ok.injEq, Prod.mk.injEq] at h
        obtain ⟨hst, hws⟩ := h
        subst hst
        subst hws
        obtain ⟨ha, hb, hc, hd⟩ := bodyLine_inum ps uv st l st1 ws1 h1 h2 h3 hbl
        rw [ih st1 st2 ws2 hb hc hd hlp, ha, List.length_append]
        omega

/-- The initial emission state starts the instruction index at zero. -/
theorem initState_inum : Asm.initState.inum = 0 := rfl

/-- The initial emission state has no captured words. -/
theorem initState_already : Asm.initState.repeatAlready = 0 := rfl

/-- The capture buffer of the initial emission state holds 1024 words. -/
theorem initState_arrlen : Asm.initState.repeatArr.length = 1024 := by
  show (List.replicate 1024 0).length = 1024
  rw [List.length_replicate]

/-- C1: whenever assembly completes without a user-facing error, the
instruction count of the sizing pass (`countInstructions`) is exactly the
program size the assembler reports, and that size equals the number of words
the emission pass emitted (as `size_t`, i.e. modulo `2^64`); a program whose
emitted-word count diverges from the sizing count cannot reach the `.ok`
outcome, because the final consistency check aborts instead. -/
theorem c1_sizing_emission (input : List Char) (rv : Nat) (uv : Bool)
    (name : List Char) (ws : List Nat) (ps : Nat) (off : Int)
    (h : Asm.compileFile input rv uv = .ok (name, ws, ps, off)) :
    Asm.countInstructions input = .ok ps ∧ ps = ws.length % 2 ^ 64 := by
  simp only [Asm.compileFile] at h
  cases hc : Asm.countInstructions input with
  | error e => simp only [hc] at h; exact Except.noConfusion h
  | ok ps0 =>
    simp only [hc] at h
    cases hh : Asm.fscanfHeader input with
    | error e => simp only [hh] at h; exact Except.noConfusion h
    | ok trip =>
      obtain ⟨nm, off0, rest⟩ := trip
      simp only [hh] at h
      cases hoff : (if off0 = -1 then Asm.chooseOffset rv ps0 else .ok off0) with
      | error e => simp only [hoff] at h; exact Except.noConfusion h
      | ok off1 =>
        simp only [hoff] at h
        cases hlp : Asm.bodyLoop ps0 uv Asm.initState (linesOf rest) with
        | error e => simp only [hlp] at h; exact Except.noConfusion h
        | ok q =>
          obtain ⟨stf, ws1⟩ := q
          simp only [hlp] at h
          by_cases hps : ps0 = stf.inum
          · rw [if_pos hps] at h
            simp only [Except.ok.injEq, Prod.mk.injEq] at h
            obtain ⟨hnm, hws1, hps0, hoff1⟩ := h
            have hfin := bodyLoop_inum ps0 uv (linesOf rest) Asm.initState stf ws1
              (by rw [initState_inum]; omega) (by rw [initState_already]; omega)
              initState_arrlen hlp
            rw [initState_inum, Nat.zero_add] at hfin
            constructor
            · rw [← hps0]
            · rw [← hps0, ← hws1, hps, hfin]
          · rw [if_neg hps] at h
            exact Except.noConfusion h

end Battel

namespace Battel

set_option maxRecDepth 4096 in
/-- Witness for `c1_sizing_emission`: the program `p 0` / `LDI 7` assembles
to the single word `[7]`, and the sizing pass counts exactly one
instruction, matching the reported program size. -/
theorem c1_sizing_emission_witness :
    Asm.countInstructions (str "p 0\nLDI 7\n") = .ok 1 ∧
    1 = ([7] : List Nat).length % 2 ^ 64 :=
  c1_sizing_emission (str "p 0\nLDI 7\n") 0 true (str "p") [7] 1 0 rfl

end Battel
